import Mathlib

/-!
Verification of the dependency-resolution and deployment engine of the
`valheim_mod_manager` repository, as a shallow embedding in Lean 4.

Python dictionaries are embedded as association lists in insertion order,
Python sets as duplicate-free lists in insertion order (the properties
proved below do not depend on iteration order), and while-loops are
embedded with an explicit fuel bound that is proven sufficient where a
theorem depends on the loop running to completion.  Machine floats do not
occur in the verified fragment (file mtimes are compared only for
equality and are modelled as integers).
-/

namespace VMM

/-- Embeds `core.models.ModDependency`: a dependency declaration
`(mod_id, version_constraint)`. -/
structure ModDependency where
  mod_id : String
  version_constraint : String
deriving DecidableEq, Repr

/-- Embeds the fields of `core.models.Mod` that the resolver and the
deployment engine read.  `install_path` is a filesystem path modelled as a
list of segments; presentation-only metadata fields are omitted. -/
structure Mod where
  id : String
  name : String
  version : String
  dependencies : List ModDependency
  enabled : Bool := true
  load_order : Int := 0
  install_path : Option (List String) := none
deriving DecidableEq, Repr

/-- Errors raised by `services.dependency_resolver` (from
`core.exceptions`): `CircularDependencyError` carries the dependency
chain, `MissingDependencyError` carries the requiring mod, the missing
dependency id and the version constraint. -/
inductive ResolveError where
  | circular (chain : List String)
  | missing (mod_id : String) (dependency : String) (constraint : String)
deriving DecidableEq, Repr

/-! ### Version comparison (`DependencyResolver._compare_versions`) -/

/-- Character-level worker for `splitOnChar`. -/
def splitOnCharGo (c : Char) : List Char → List Char → List String
  | [], acc => [String.mk acc.reverse]
  | ch :: rest, acc =>
      if ch = c then String.mk acc.reverse :: splitOnCharGo c rest []
      else splitOnCharGo c rest (ch :: acc)

/-- Embeds Python `str.split(sep)` for a one-character separator, e.g.
`v.split('.')`: split at every occurrence, keeping empty components. -/
def splitOnChar (c : Char) (s : String) : List String := splitOnCharGo c s.toList []

/-- Accumulates the value of a digit run; `none` on a non-digit. -/
def digitsVal : List Char → Nat → Option Nat
  | [], acc => some acc
  | ch :: rest, acc =>
      if ch.isDigit then digitsVal rest (acc * 10 + (ch.toNat - 48)) else none

/-- Embeds Python `int(s)` on version components: an optional sign
followed by at least one decimal digit; `none` where Python raises
`ValueError`.  (Python's tolerance for surrounding whitespace and digit
underscores is not modelled; version components never contain them.) -/
def pyInt? (s : String) : Option Int :=
  match s.toList with
  | [] => none
  | '-' :: rest => if rest = [] then none else (digitsVal rest 0).map (fun n => -(n : Int))
  | '+' :: rest => if rest = [] then none else (digitsVal rest 0).map (fun n => (n : Int))
  | l => (digitsVal l 0).map (fun n => (n : Int))

/-- Embeds `normalize` inside `_compare_versions`: split the version on
`'.'` and convert every component with `int`; if any component fails to
parse, the bare `except` clause replaces the whole tuple by `(0, 0, 0)`. -/
def normalizeVersion (v : String) : List Int :=
  if (((splitOnChar '.' v).map pyInt?).all Option.isSome) then
    ((splitOnChar '.' v).map pyInt?).map (fun o => o.getD 0)
  else [0, 0, 0]

/-- Embeds Python tuple comparison on integer tuples, used by
`_compare_versions`: lexicographic, a strict prefix is smaller. -/
def tupleCompare : List Int → List Int → Int
  | [], [] => 0
  | [], _ :: _ => -1
  | _ :: _, [] => 1
  | a :: as', b :: bs' =>
      if a < b then -1 else if b < a then 1 else tupleCompare as' bs'

/-- Embeds `DependencyResolver._compare_versions`. -/
def compareVersions (v1 v2 : String) : Int :=
  tupleCompare (normalizeVersion v1) (normalizeVersion v2)

/-! ### Dependency graph construction
(`DependencyResolver._build_dependency_graph`) -/

/-- The dependency graph: Python `defaultdict(set)` as an association
list from mod id to its dependency ids, keys in insertion order, each
value list duplicate-free. -/
abbrev Graph := List (String × List String)

/-- Key list of the graph, in insertion order. -/
def keys (g : Graph) : List String := g.map (·.1)

/-- Adjacency of a node: the set of ids it depends on (`graph[node]`).
Absent nodes have no adjacency. -/
def adj (g : Graph) (x : String) : List String := (g.lookup x).getD []

/-- Edge relation of the graph: `v ∈ graph[u]`, i.e. `u` depends on `v`. -/
def isEdge (g : Graph) (u v : String) : Prop := v ∈ adj g u

instance (g : Graph) (u v : String) : Decidable (isEdge g u v) :=
  inferInstanceAs (Decidable (v ∈ adj g u))

/-- Inserts the node `x` with empty adjacency unless already present
(`if mod.id not in graph: graph[mod.id] = set()`). -/
def graphAddNode (g : Graph) (x : String) : Graph :=
  if (g.lookup x).isSome then g else g ++ [(x, [])]

/-- Adds `v` to `graph[u]` with set semantics (`graph[mod.id].add(...)`);
`u` is already a key when this is called. -/
def graphAddEdge (g : Graph) (u v : String) : Graph :=
  g.map (fun p => if p.1 = u then (p.1, if v ∈ p.2 then p.2 else p.2 ++ [v]) else p)

/-- Processes the dependency list of one mod: for each declared
dependency, raise `MissingDependencyError` when the target id is not an
input id, otherwise add the edge. -/
def addModEdges (mod_ids : List String) (m : Mod) :
    Graph → List ModDependency → Except ResolveError Graph
  | g, [] => .ok g
  | g, dep :: rest =>
      if dep.mod_id ∈ mod_ids then
        addModEdges mod_ids m (graphAddEdge g m.id dep.mod_id) rest
      else
        .error (.missing m.id dep.mod_id dep.version_constraint)

/-- Embeds `DependencyResolver._build_dependency_graph`: every input mod
becomes a node; each declared dependency either adds an edge or raises
`MissingDependencyError` when its id is not among the input ids. -/
def buildDependencyGraph (mods : List Mod) : Except ResolveError Graph :=
  let mod_ids := mods.map (·.id)
  mods.foldlM (fun g m => addModEdges mod_ids m (graphAddNode g m.id) m.dependencies) []

/-- The same graph construction with the missing-dependency check
dropped: the total function used to state hypotheses about the graph of
an input mod list.  When every declared dependency id is an input id,
`buildDependencyGraph` succeeds and returns exactly this graph. -/
def depGraphStep (g : Graph) (m : Mod) : Graph :=
  m.dependencies.foldl (fun g' dep => graphAddEdge g' m.id dep.mod_id) (graphAddNode g m.id)

/-- Total dependency graph of a mod list (see `depGraphStep`). -/
def depGraph (mods : List Mod) : Graph := mods.foldl depGraphStep []

/-! ### Cycle detection (`DependencyResolver._check_circular_dependencies`)

The three-colour DFS.  Colours are an association list updated by
shadowing; an id absent from the list is WHITE (`0`), matching the
initialisation `{node: WHITE for node in graph}` because the DFS is only
reached with graph keys.  The recursion is embedded with a fuel counter
that is decremented once per descent into a WHITE node; `(keys g).length`
fuel is proven sufficient. -/

abbrev Colors := List (String × Nat)

/-- Colour of a node: WHITE = 0, GRAY = 1, BLACK = 2. -/
def colorOf (c : Colors) (x : String) : Nat := (c.lookup x).getD 0

/-- Sets the colour of a node (dictionary update by shadowing). -/
def paint (x : String) (v : Nat) (c : Colors) : Colors := (x, v) :: c

/-- Result of the DFS: completed colour state, a discovered cycle
(`CircularDependencyError`), or fuel exhaustion (proven unreachable). -/
inductive DfsRes where
  | ok (c : Colors)
  | cyc (chain : List String)
  | fuelOut
deriving DecidableEq, Repr

/-- Embeds `dfs(node, path)` from `_check_circular_dependencies`: a GRAY
node closes a cycle `path[path.index(node):] + [node]`; a BLACK node
returns; a WHITE node is painted GRAY, its neighbours are visited in
order with the extended path (each receives a copy of the same path,
and the first raised cycle is the result — the fold keeps an error once
one occurs), and the node is painted BLACK.  The recursion is structural
on the fuel, consumed once per descent into a WHITE node. -/
def dfsVisit (g : Graph) (fuel : Nat) (node : String) (path : List String)
    (c : Colors) : DfsRes :=
    if colorOf c node = 1 then
      .cyc (path.drop (path.indexOf node) ++ [node])
    else if colorOf c node = 2 then
      .ok c
    else
      match fuel with
      | 0 => .fuelOut
      | f + 1 =>
          match (adj g node).foldl
              (fun (acc : DfsRes) n =>
                match acc with
                | .ok c' => dfsVisit g f n (path ++ [node]) c'
                | r => r)
              (.ok (paint node 1 c)) with
          | .ok c' => .ok (paint node 2 c')
          | r => r

/-- Visits a list of nodes in order, threading the colour state (the
neighbour loop of `dfs`, and the top-level loop over the graph keys). -/
def dfsFold (g : Graph) (fuel : Nat) (nodes : List String) (path : List String)
    (c : Colors) : DfsRes :=
  nodes.foldl
    (fun (acc : DfsRes) n =>
      match acc with
      | .ok c' => dfsVisit g fuel n path c'
      | r => r)
    (.ok c)

/-- Embeds `DependencyResolver._check_circular_dependencies`: run the DFS
from every graph key (WHITE-node re-checks inside `dfsVisit` make the
outer `if colors[node] == WHITE` test redundant), raising
`CircularDependencyError` on a GRAY hit. -/
def checkCircularDependencies (g : Graph) : Except ResolveError Unit :=
  match dfsFold g (keys g).length (keys g) [] [] with
  | .ok _ => .ok ()
  | .cyc chain => .error (.circular chain)
  | .fuelOut => .error (.circular [])

/-! ### Topological sort (`DependencyResolver._topological_sort`)

Kahn's algorithm.  In-degrees are Python ints (they can go negative when
an already-emitted node's count is decremented further), kept in an
association list; the queue is FIFO.  The loop is embedded with fuel;
the sum of positive in-degrees plus the queue length is proven to
strictly decrease, so the chosen fuel is sufficient. -/

/-- In-degree map lookup (`in_degree.get(v, 0)`). -/
def ideg (ind : List (String × Int)) (v : String) : Int := (ind.lookup v).getD 0

/-- Sets a value in the in-degree map, keeping key order and inserting at
the end when absent (Python dict update). -/
def idegSet (ind : List (String × Int)) (v : String) (n : Int) :
    List (String × Int) :=
  if (ind.lookup v).isSome then
    ind.map (fun p => if p.1 = v then (p.1, n) else p)
  else
    ind ++ [(v, n)]

/-- Initial in-degrees: `{node: 0 for node in graph}` then one increment
per edge (`in_degree[neighbor] = in_degree.get(neighbor, 0) + 1`). -/
def initIndeg (g : Graph) : List (String × Int) :=
  let base := (keys g).foldl (fun ind v => idegSet ind v 0) []
  g.foldl (fun ind p => p.2.foldl (fun ind' v => idegSet ind' v (ideg ind' v + 1)) ind) base

/-- One popped node's neighbour pass: decrement each neighbour's
in-degree and enqueue it when the new value is exactly zero. -/
def kahnNeighbors (ind : List (String × Int)) (queue : List String) :
    List String → List (String × Int) × List String
  | [] => (ind, queue)
  | v :: rest =>
      let ind' := idegSet ind v (ideg ind v - 1)
      let queue' := if ideg ind' v = 0 then queue ++ [v] else queue
      kahnNeighbors ind' queue' rest

/-- The Kahn work loop (`while queue`), fuel-bounded. -/
def kahnLoop (g : Graph) : Nat → List (String × Int) → List String →
    List String → List String
  | _, _, [], sorted => sorted
  | 0, _, _ :: _, sorted => sorted
  | fuel + 1, ind, node :: rest, sorted =>
      let (ind', queue') := kahnNeighbors ind rest (adj g node)
      kahnLoop g fuel ind' queue' (sorted ++ [node])

/-- Sum of positive in-degrees: the potential used for fuel sufficiency. -/
def idegWeight (ind : List (String × Int)) : Nat :=
  (ind.map (fun p => p.2.toNat)).sum

/-- Embeds `DependencyResolver._topological_sort`: initial queue of
zero-in-degree keys in key order, the work loop, the defensive residual
check (`len(sorted_list) != len(graph)`), and the final reversal. -/
def topologicalSort (g : Graph) : Except ResolveError (List String) :=
  let ind := initIndeg g
  let queue := (keys g).filter (fun v => ideg ind v = 0)
  let sorted := kahnLoop g (idegWeight ind + queue.length) ind queue []
  if sorted.length ≠ (keys g).length then
    .error (.circular ((keys g).filter (fun v => v ∉ sorted)))
  else
    .ok sorted.reverse

/-- Embeds `DependencyResolver.resolve_load_order`: build the graph,
check for circular dependencies, topologically sort.  (Registering the
mods into the instance registry does not affect the result.) -/
def resolveLoadOrder (mods : List Mod) : Except ResolveError (List String) := do
  let g ← buildDependencyGraph mods
  checkCircularDependencies g
  topologicalSort g

/-! ### `DependencyResolver.get_all_dependencies` -/

/-- The registry `self.mod_registry` as an association list id → Mod. -/
abbrev Registry := List (String × Mod)

/-- The BFS work loop of `get_all_dependencies(..., recursive=True)`:
pop an id; skip it when visited or equal to the origin; otherwise mark
visited, record it, and enqueue its dependencies not yet visited. -/
def gadLoop (registry : Registry) (origin : String) :
    Nat → List String → List String → List String → List String
  | _, [], _, deps => deps
  | 0, _ :: _, _, deps => deps
  | fuel + 1, current :: rest, visited, deps =>
      if current ∈ visited ∨ current = origin then
        gadLoop registry origin fuel rest visited deps
      else
        let visited' := visited ++ [current]
        let queue' :=
          match registry.lookup current with
          | none => rest
          | some m =>
              rest ++ (m.dependencies.map (·.mod_id)).filter (fun d => d ∉ visited')
        gadLoop registry origin fuel queue' visited' (deps ++ [current])

/-- Embeds `DependencyResolver.get_all_dependencies`.  The fuel bounds
the BFS loop; the result is fuel-independent because the loop stops after
two iterations (see `get_all_dependencies_recursive_empty`). -/
def getAllDependencies (registry : Registry) (mod_id : String)
    (recursive : Bool := true) : List String :=
  match registry.lookup mod_id with
  | none => []
  | some m =>
      if !recursive then m.dependencies.map (·.mod_id)
      else gadLoop registry mod_id (registry.length + 1) [mod_id] [] []

/-! ### `DependencyResolver.auto_resolve_dependencies` -/

/-- The accumulation loop: pop an id from the work queue; when it is not
in the catalog log a warning and skip it; otherwise enqueue each of its
declared dependencies that is not yet in the accumulated required set.
`required` is kept as a duplicate-free list in insertion order. -/
def autoLoop (available : List (String × Mod)) :
    Nat → List String → List String → List String
  | _, required, [] => required
  | 0, required, _ :: _ => required
  | fuel + 1, required, current :: rest =>
      match available.lookup current with
      | none => autoLoop available fuel required rest
      | some m =>
          let step := m.dependencies.foldl
            (fun (acc : List String × List String) dep =>
              if dep.mod_id ∈ acc.1 then acc
              else (acc.1 ++ [dep.mod_id], acc.2 ++ [dep.mod_id]))
            (required, rest)
          autoLoop available fuel step.1 step.2

/-- Fuel bound for `autoLoop`: every id ever enqueued is a requested id
or a declared dependency of a catalog mod. -/
def autoFuel (mod_ids : List String) (available : List (String × Mod)) : Nat :=
  mod_ids.length +
    ((available.map (fun p => p.2.dependencies.length)).sum + mod_ids.length)

/-- The accumulated required set of
`DependencyResolver.auto_resolve_dependencies` (insertion order;
`required = set(mod_ids)` deduplicates the requested ids). -/
def autoAccumulate (mod_ids : List String) (available : List (String × Mod)) :
    List String :=
  autoLoop available (autoFuel mod_ids available) mod_ids.dedup mod_ids

/-- Embeds `DependencyResolver.auto_resolve_dependencies`: accumulate the
required set, keep the ids present in the catalog, and resolve the load
order over those mods with the strict resolver. -/
def autoResolveDependencies (mod_ids : List String)
    (available : List (String × Mod)) : Except ResolveError (List String) :=
  let required := autoAccumulate mod_ids available
  let mods_to_sort := (required.filter (fun mid => (available.lookup mid).isSome)).map
    (fun mid => ((available.lookup mid).getD { id := mid, name := mid, version := "", dependencies := [] }))
  resolveLoadOrder mods_to_sort

/-- The `mods_to_sort` list of `auto_resolve_dependencies`: the
accumulated required ids that are present in the catalog, resolved to
their catalog mods. -/
def autoModsToSort (mod_ids : List String) (available : List (String × Mod)) :
    List Mod :=
  ((autoAccumulate mod_ids available).filter
      (fun mid => (available.lookup mid).isSome)).map
    (fun mid => ((available.lookup mid).getD
      { id := mid, name := mid, version := "", dependencies := [] }))

/-! ### Hash cache (`utils.hash_utils.HashCache`)

Filesystem paths are modelled as already-absolute strings here
(`str(file_path.absolute())` is the identity on absolute paths); `stat`
is an oracle mapping a path to its `(st_mtime, st_size)` pair, `none`
when `stat()` raises.  `OrderedDict` is a list in recency order, most
recently used at the end. -/

/-- An oracle for `Path.stat()`: mtime and size, `none` when the file is
gone. -/
abbrev StatFn := String → Option (Int × Int)

/-- Embeds `HashCache`: `cache` maps a path to
`(file_hash, cached_mtime, cached_size)`. -/
structure HashCache where
  cache : List (String × String × Int × Int)
  max_size : Nat := 1000
deriving DecidableEq, Repr

/-- Embeds `HashCache.get`: a miss when the key is absent; on a cached
entry, a hit (moving the entry to the recent end) only when both the
current mtime and size equal the cached values; any mismatch or stat
failure deletes the entry and returns a miss.  Returns the result and
the updated cache. -/
def HashCache.get (stat : StatFn) (hc : HashCache) (file_path : String) :
    Option String × HashCache :=
  match hc.cache.lookup file_path with
  | none => (none, hc)
  | some (h, m, s) =>
      match stat file_path with
      | none =>
          (none, { hc with cache := hc.cache.filter (fun p => p.1 ≠ file_path) })
      | some (m', s') =>
          if m' = m ∧ s' = s then
            (some h,
             { hc with cache :=
                hc.cache.filter (fun p => p.1 ≠ file_path) ++ [(file_path, h, m, s)] })
          else
            (none, { hc with cache := hc.cache.filter (fun p => p.1 ≠ file_path) })

/-- Embeds `HashCache.put`: on stat failure do nothing; otherwise store
`(hash, mtime, size)` at the recent end and evict the oldest entry when
over capacity. -/
def HashCache.put (stat : StatFn) (hc : HashCache) (file_path : String)
    (file_hash : String) : HashCache :=
  match stat file_path with
  | none => hc
  | some (m, s) =>
      let cache' := hc.cache.filter (fun p => p.1 ≠ file_path) ++ [(file_path, file_hash, m, s)]
      if cache'.length > hc.max_size then
        { hc with cache := cache'.drop 1 }
      else
        { hc with cache := cache' }

/-! ### Filesystem model for the deployment engine

Paths are lists of segments.  `FS.files` maps a file path to its byte
content (a `String`); `FS.dirs` lists the existing directories.  File
content hashing (`calculate_file_hash`) is parameterised by the digest
function `hash` applied to the content; a missing file hashes to the
sentinel `""`. -/

structure FS where
  files : List (List String × String)
  dirs : List (List String)
deriving DecidableEq, Repr

/-- Whether `f` lies strictly under directory `d`. -/
def underDir (d f : List String) : Bool :=
  decide (d.length < f.length) && (f.take d.length == d)

/-- Embeds `calculate_file_hash`: hash of the content, `""` when the
file does not exist. -/
def calculateFileHash (hash : String → String) (fs : FS) (p : List String) : String :=
  match fs.files.lookup p with
  | none => ""
  | some content => hash content

/-- Whether directory `d` has at least one entry (`any(parent.iterdir())`):
a file or a directory whose parent is `d`. -/
def dirNonempty (fs : FS) (d : List String) : Bool :=
  fs.files.any (fun f => f.1.length = d.length + 1 && f.1.dropLast == d) ||
    fs.dirs.any (fun x => x.length = d.length + 1 && x.dropLast == d)

/-! ### `DeploymentEngine` -/

/-- Embeds the fields of `core.models.Profile` that the deployment
engine reads. -/
structure Profile where
  name : String
  mods : List Mod
  game_path : Option (List String) := none
  active : Bool := false
deriving DecidableEq, Repr

/-- Embeds `Profile.get_enabled_mods`. -/
def Profile.get_enabled_mods (p : Profile) : List Mod := p.mods.filter (·.enabled)

/-- `Settings.BEPINEX_PLUGINS_DIR` as path segments. -/
def bepinexPluginsDir : List String := ["BepInEx", "plugins"]

/-- The metadata filenames skipped by `DeploymentEngine._get_mod_files`. -/
def metadataNames : List String := ["manifest.json", "icon.png", "README.md", "CHANGELOG.md"]

/-- Embeds `DeploymentEngine._get_mod_files`: every file under the mod's
install tree except the metadata files, in filesystem order. -/
def getModFiles (fs : FS) (m : Mod) : List (List String) :=
  match m.install_path with
  | none => []
  | some ip =>
      if ip ∈ fs.dirs then
        (fs.files.map (·.1)).filter
          (fun f => underDir ip f && decide ((f.getLastD "") ∉ metadataNames))
      else []

/-- Dictionary insert-or-overwrite keeping key order (Python dict
assignment). -/
def upsert (st : List (List String × String)) (k : List String) (v : String) :
    List (List String × String) :=
  if (st.lookup k).isSome then
    st.map (fun p => if p.1 = k then (p.1, v) else p)
  else st ++ [(k, v)]

/-- The desired state built by `calculate_changes`: for every enabled
mod with an existing install tree, map each deployable source file to
`<game>/<BepInEx/plugins>/<mod id>/<relative path>` with its content
fingerprint. -/
def desiredState (hash : String → String) (fs : FS) (game_path : List String)
    (mods : List Mod) : List (List String × String) :=
  mods.foldl
    (fun st m =>
      match m.install_path with
      | none => st
      | some ip =>
          if ip ∈ fs.dirs then
            (getModFiles fs m).foldl
              (fun st' src =>
                let dst := game_path ++ bepinexPluginsDir ++ [m.id] ++ src.drop ip.length
                upsert st' dst (calculateFileHash hash fs src))
              st
          else st)
    []

/-- The three change lists returned by `calculate_changes`. -/
structure Changes where
  to_add : List (List String)
  to_update : List (List String)
  to_remove : List (List String)
deriving DecidableEq, Repr

/-- Embeds `DeploymentEngine.calculate_changes`: diff the desired state
against the stored deployment state `current_state` for the profile.
The function only reads the database and the filesystem; it mutates
neither. -/
def calculateChanges (hash : String → String) (fs : FS)
    (current_state : List (List String × String)) (game_path : List String)
    (mods : List Mod) : Changes :=
  let new_state := desiredState hash fs game_path mods
  { to_add := (new_state.filter (fun kv => (current_state.lookup kv.1).isNone)).map (·.1)
    to_update := (new_state.filter
      (fun kv => match current_state.lookup kv.1 with
                 | some h => decide (h ≠ kv.2)
                 | none => false)).map (·.1)
    to_remove := (current_state.filter (fun kv => (new_state.lookup kv.1).isNone)).map (·.1) }

/-- The upward walk of `DeploymentEngine._remove_file`: while the parent
directory exists and is empty, remove it and move to its parent.  There
is no stop condition at the deployment target root.  The fuel bounds the
loop; every iteration removes one existing directory, so any fuel of at
least `fs.dirs.length` makes the embedded loop run to completion (see
`removeEmptyParents_fuel_stable`). -/
def removeEmptyParents (fs : FS) : Nat → List String → FS
  | 0, _ => fs
  | fuel + 1, parent =>
      if parent ∈ fs.dirs ∧ dirNonempty fs parent = false then
        removeEmptyParents { fs with dirs := fs.dirs.erase parent } fuel parent.dropLast
      else fs

/-- Embeds `DeploymentEngine._remove_file`: delete the file if present,
then remove now-empty parent directories walking upward. -/
def removeFile (fs : FS) (file_path : List String) : FS :=
  if file_path ∈ fs.files.map (·.1) then
    let fs' : FS := { fs with files := fs.files.filter (fun f => f.1 ≠ file_path) }
    removeEmptyParents fs' (fs'.dirs.length + 1) file_path.dropLast
  else fs

/-! ### `deploy_profile` under the `with_rollback` decorator

`core.exceptions.with_rollback` wraps `deploy_profile`.  Before entering
its `try` block the wrapper evaluates `self.create_checkpoint()` — zero
positional arguments — while `DeploymentEngine.create_checkpoint(self,
profile)` declares one required positional parameter `profile`, so the
Python call protocol raises
`TypeError: create_checkpoint() missing 1 required positional argument: 'profile'`
before any statement of either method body runs.  The engine state
(filesystem, database, ghost event trace) is threaded explicitly to show
that nothing is mutated. -/

/-- Python errors surfaced by the deployment engine. -/
inductive PyError where
  | typeError (msg : String)
  | deploymentError (msg : String)
  | deploymentFailed (msg : String)
  | gamePathInvalid (msg : String)
  | rollbackError (msg : String)
deriving DecidableEq, Repr

/-- Ghost trace of the engine's observable side effects. -/
inductive EngineEvent where
  | checkpointCreated (profile_name : String)
  | rollbackRun (profile_name : String)
  | fileCopied (p : List String)
  | fileRemoved (p : List String)
deriving DecidableEq, Repr

/-- The world a `DeploymentEngine` acts on: the filesystem, the database
table `deployment_state` keyed by profile name, and the ghost event
trace. -/
structure EngineWorld where
  fs : FS
  db : List (String × List (List String × String))
  events : List EngineEvent
deriving DecidableEq, Repr

/-- Embeds `DeploymentCheckpoint` (profile name, game path, the
deployment-state snapshot, and the backup copies of the then-deployed
files). -/
structure DeploymentCheckpoint where
  profile_name : String
  game_path : List String
  deployment_state : List (List String × String)
  backup : List (List String × String)
deriving DecidableEq, Repr

/-- Embeds `DeploymentEngine.create_checkpoint(self, profile)` (the
method body, reached only by a call supplying the `profile` argument). -/
def createCheckpoint (w : EngineWorld) (profile : Profile) :
    Except PyError DeploymentCheckpoint × EngineWorld :=
  match profile.game_path with
  | none => (.error (.deploymentError "Profile has no game path set"), w)
  | some gp =>
      let st := (w.db.lookup profile.name).getD []
      let backup := st.filterMap
        (fun kv => (w.fs.files.lookup kv.1).map (fun content => (kv.1, content)))
      (.ok { profile_name := profile.name, game_path := gp,
             deployment_state := st, backup := backup },
       { w with events := w.events ++ [.checkpointCreated profile.name] })

/-- The call `self.create_checkpoint()` made by the `with_rollback`
wrapper: zero positional arguments against one required positional
parameter, hence `TypeError` from the call protocol, with the method
body never entered and the world untouched. -/
def createCheckpointZeroArgs (w : EngineWorld) :
    Except PyError DeploymentCheckpoint × EngineWorld :=
  (.error (.typeError
    "create_checkpoint() missing 1 required positional argument: profile"), w)

/-- Sets the deployment state of one profile in the database table. -/
def upsertState (db : List (String × List (List String × String))) (k : String)
    (v : List (List String × String)) : List (String × List (List String × String)) :=
  if (db.lookup k).isSome then
    db.map (fun p => if p.1 = k then (p.1, v) else p)
  else db ++ [(k, v)]

/-- Embeds `DeploymentEngine.rollback(checkpoint)`: remove every
currently tracked file for the checkpoint's profile, restore the backup
copies, and reset the stored deployment state to the snapshot. -/
def rollback (w : EngineWorld) (ck : DeploymentCheckpoint) :
    Except PyError Bool × EngineWorld :=
  let current := (w.db.lookup ck.profile_name).getD []
  let fs1 := current.foldl (fun fs kv => removeFile fs kv.1) w.fs
  let fs2 : FS := { fs1 with files := ck.backup.foldl (fun l kv => upsert l kv.1 kv.2) fs1.files }
  let db' := upsertState w.db ck.profile_name ck.deployment_state
  (.ok true,
   { fs := fs2, db := db',
     events := w.events ++ [.rollbackRun ck.profile_name] })

/-- Embeds `DeploymentEngine.validate_game_path`. -/
def validateGamePath (w : EngineWorld) (game_path : List String) :
    Except PyError Bool :=
  if game_path ∉ w.fs.dirs then
    .error (.gamePathInvalid "Game path does not exist")
  else if ¬ (["valheim.exe", "valheim", "valheim.x86_64"].any
      (fun exe => (w.fs.files.lookup (game_path ++ [exe])).isSome)) then
    .error (.gamePathInvalid "Game executable not found")
  else
    .ok true

/-- The copy pass of the `deploy_profile` body: for every enabled mod in
load order and every deployable file whose destination hash differs,
copy the file and record `(dest, hash, mod id, profile)` in the
database. -/
def deployCopyPass (hash : String → String) (profile_name : String)
    (game_path : List String) (w : EngineWorld) (ms : List Mod) : EngineWorld :=
  ms.foldl
    (fun w' m =>
      match m.install_path with
      | none => w'
      | some ip =>
          if ip ∈ w'.fs.dirs then
            (getModFiles w'.fs m).foldl
              (fun w'' src =>
                let dst := game_path ++ bepinexPluginsDir ++ [m.id] ++ src.drop ip.length
                if calculateFileHash hash w''.fs src ≠ calculateFileHash hash w''.fs dst then
                  let content := (w''.fs.files.lookup src).getD ""
                  { fs := { w''.fs with files := upsert w''.fs.files dst content },
                    db := upsertState w''.db profile_name
                      (upsert ((w''.db.lookup profile_name).getD []) dst
                        (calculateFileHash hash w''.fs src)),
                    events := w''.events ++ [.fileCopied dst] }
                else w'')
              w'
          else w')
    w

/-- Embeds the body of `deploy_profile` (the undecorated function):
validate the path, checkpoint, diff, apply removals then copies, and
re-raise any failure as `DeploymentFailedError`.  Unreachable through
the public entry point (see `deployProfile`). -/
def deployProfileBody (hash : String → String) (w : EngineWorld)
    (profile : Profile) : Except PyError Bool × EngineWorld :=
  match profile.game_path with
  | none => (.error (.deploymentError "Profile has no game path set"), w)
  | some gp =>
      match validateGamePath w gp with
      | .error e => (.error e, w)
      | .ok _ =>
          match createCheckpoint w profile with
          | (.error e, w1) => (.error e, w1)
          | (.ok _, w1) =>
              let enabled := profile.get_enabled_mods
              if enabled.isEmpty then (.ok true, w1)
              else
                let ms := enabled.mergeSort (fun a b => decide (a.load_order ≤ b.load_order))
                let st := (w1.db.lookup profile.name).getD []
                let changes := calculateChanges hash w1.fs st gp ms
                let w2 := changes.to_remove.foldl
                  (fun w' p =>
                    { w' with fs := removeFile w'.fs p,
                              events := w'.events ++ [.fileRemoved p] })
                  w1
                let w3 := deployCopyPass hash profile.name gp w2 ms
                (.ok true, w3)

/-- Embeds the public `deploy_profile` — the method as decorated by
`with_rollback`: the wrapper first evaluates `self.create_checkpoint()`
(zero arguments), whose `TypeError` propagates before the `try` block is
entered, so neither the body nor any rollback ever runs. -/
def deployProfile (hash : String → String) (w : EngineWorld) (profile : Profile) :
    Except PyError Bool × EngineWorld :=
  match createCheckpointZeroArgs w with
  | (.error e, w') => (.error e, w')
  | (.ok ck, w') =>
      match deployProfileBody hash w' profile with
      | (.ok v, w'') => (.ok v, w'')
      | (.error e, w'') =>
          match rollback w'' ck with
          | (.ok _, w3) => (.error e, w3)
          | (.error _, w3) => (.error (.rollbackError "Rollback failed"), w3)

/-- Tests whether an engine event is a rollback. -/
def isRollbackEvent : EngineEvent → Bool
  | .rollbackRun _ => true
  | _ => false

/-- Tests whether a deployment outcome is a raised
`DeploymentFailedError`. -/
def isDeploymentFailedRes : Except PyError Bool → Bool
  | .error (.deploymentFailed _) => true
  | _ => false

/-! ### Specification-side graph notions -/

/-- A dependency cycle in the graph: a walk of length at least two whose
consecutive elements are dependency edges and whose last element equals
its first. -/
def IsCycleChain (g : Graph) (c : List String) : Prop :=
  2 ≤ c.length ∧ List.Chain' (isEdge g) c ∧ c.head? = c.getLast?

instance (g : Graph) (c : List String) : Decidable (IsCycleChain g c) :=
  inferInstanceAs (Decidable (2 ≤ c.length ∧ List.Chain' (isEdge g) c ∧ c.head? = c.getLast?))

/-- The graph has no dependency cycle. -/
def Acyclic (g : Graph) : Prop := ∀ c, ¬ IsCycleChain g c

/-- Every edge target of the graph is a key (holds for every graph built
from a mod list whose dependencies are all present). -/
def WFGraph (g : Graph) : Prop := ∀ x y, y ∈ adj g x → y ∈ keys g

/-- The filesystem is directory-closed: every proper ancestor of a file
path is an existing directory. -/
def dirClosedFS (fs : FS) : Prop :=
  ∀ fc ∈ fs.files, ∀ k, 0 < k → k < fc.1.length → fc.1.take k ∈ fs.dirs

instance (fs : FS) : Decidable (dirClosedFS fs) := by
  unfold dirClosedFS
  have : ∀ (fc : List String × String),
      Decidable (∀ k, 0 < k → k < fc.1.length → fc.1.take k ∈ fs.dirs) := by
    intro fc
    have := Nat.decidableBallLT fc.1.length
      (fun k _ => 0 < k → fc.1.take k ∈ fs.dirs)
    exact decidable_of_iff (∀ k, k < fc.1.length → 0 < k → fc.1.take k ∈ fs.dirs)
      (by constructor
          · intro h k h1 h2; exact h k h2 h1
          · intro h k h1 h2; exact h k h2 h1)
  exact List.decidableBAll _ fs.files

/-- Number of WHITE graph keys: the measure showing the DFS fuel
sufficient. -/
def whites (g : Graph) (c : Colors) : Nat :=
  ((keys g).filter (fun x => decide (colorOf c x = 0))).length

/-- Number of not-yet-emitted predecessors of `v` (nodes `u` outside
`sorted` that depend on `v`): the quantity the Kahn in-degrees track. -/
def predCount (g : Graph) (sorted : List String) (v : String) : Nat :=
  ((keys g).filter (fun u => decide (u ∉ sorted ∧ v ∈ adj g u))).length

/-- Structural sanity of a built graph: duplicate-free keys and
duplicate-free adjacency sets. -/
def GraphInv (g : Graph) : Prop := (keys g).Nodup ∧ ∀ x, (adj g x).Nodup

/-- What a successful DFS run does to the colour state: blacks persist,
greys are exactly preserved, the white count does not grow, and every
colour written is GRAY or BLACK. -/
def OkInv (g : Graph) (c c' : Colors) : Prop :=
  (∀ x, colorOf c x = 2 → colorOf c' x = 2) ∧
  (∀ x, colorOf c' x = 1 ↔ colorOf c x = 1) ∧
  whites g c' ≤ whites g c ∧
  (∀ x, colorOf c' x = colorOf c x ∨ colorOf c' x = 1 ∨ colorOf c' x = 2)

/-- The BLACK nodes listed in their finishing order form a reverse
topological order: every edge out of a black node points at an earlier
black node.  A successful DFS maintains this, which makes the graph
acyclic when every key ends black. -/
def TopoState (g : Graph) (c : Colors) (L : List String) : Prop :=
  L.Nodup ∧ (∀ x, colorOf c x = 2 ↔ x ∈ L) ∧
  (∀ u ∈ L, ∀ v, isEdge g u v → v ∈ L ∧ L.indexOf v < L.indexOf u)

/-- Invariant of the Kahn work loop relating the in-degree map, the
queue and the emitted list. -/
def KahnInv (g : Graph) (ind : List (String × Int)) (queue sorted : List String) :
    Prop :=
  ind.map Prod.fst = keys g ∧
  (sorted ++ queue).Nodup ∧
  (∀ x ∈ sorted, x ∈ keys g) ∧ (∀ x ∈ queue, x ∈ keys g) ∧
  (∀ v ∈ keys g, ideg ind v = (predCount g sorted v : Int)) ∧
  (∀ v ∈ keys g, (v ∈ sorted ∨ v ∈ queue) ↔ predCount g sorted v = 0) ∧
  (∀ v ∈ sorted, ∀ u, isEdge g u v → u ∈ sorted ∧ sorted.indexOf u < sorted.indexOf v)

/-! ## Association list lemmas -/

theorem lookup_some_mem {α β : Type} [BEq α] [LawfulBEq α] :
    ∀ {l : List (α × β)} {k : α} {v : β}, l.lookup k = some v → (k, v) ∈ l := by
  intro l
  induction l with
  | nil => intro k v h; simp [List.lookup] at h
  | cons p rest ih =>
      intro k v h
      rw [List.lookup] at h
      by_cases hk : k == p.1
      · rw [hk] at h
        simp at h
        have hk' : k = p.1 := eq_of_beq hk
        subst hk'
        simp [← h]
      · rw [Bool.of_not_eq_true hk] at h
        simp at h
        exact List.mem_cons_of_mem _ (ih h)

theorem mem_lookup_isSome {α β : Type} [BEq α] [LawfulBEq α] :
    ∀ {l : List (α × β)} {k : α} {v : β}, (k, v) ∈ l → (l.lookup k).isSome = true := by
  intro l
  induction l with
  | nil => intro k v h; simp at h
  | cons p rest ih =>
      intro k v h
      rw [List.lookup]
      by_cases hk : k == p.1
      · rw [hk]; simp
      · rw [Bool.of_not_eq_true hk]
        simp only []
        rcases List.mem_cons.mp h with h1 | h2
        · have hkp : k = p.1 := by rw [← h1]
          exact absurd (beq_iff_eq.mpr hkp) hk
        · exact ih h2

theorem lookup_none_iff {α β : Type} [BEq α] [LawfulBEq α] :
    ∀ {l : List (α × β)} {k : α}, l.lookup k = none ↔ k ∉ l.map Prod.fst := by
  intro l
  induction l with
  | nil => intro k; simp [List.lookup]
  | cons p rest ih =>
      intro k
      rw [List.lookup]
      by_cases hk : k == p.1
      · rw [hk]
        have hk' : k = p.1 := eq_of_beq hk
        simp [hk']
      · rw [Bool.of_not_eq_true hk]
        simp only [List.map_cons, List.mem_cons]
        constructor
        · intro h hc
          rcases hc with h1 | h2
          · exact absurd (beq_iff_eq.mpr h1) hk
          · exact (ih.mp h) h2
        · intro h; exact ih.mpr (fun hc => h (Or.inr hc))

theorem lookup_of_mem_nodupkeys {α β : Type} [BEq α] [LawfulBEq α] :
    ∀ {l : List (α × β)} {k : α} {v : β},
      (l.map Prod.fst).Nodup → (k, v) ∈ l → l.lookup k = some v := by
  intro l
  induction l with
  | nil => intro k v _ h; simp at h
  | cons p rest ih =>
      intro k v hn h
      rw [List.lookup]
      simp only [List.map_cons, List.nodup_cons] at hn
      rcases List.mem_cons.mp h with h1 | h2
      · rw [← h1]
        simp
      · by_cases hk : k == p.1
        · have hk' : k = p.1 := eq_of_beq hk
          subst hk'
          exact absurd (List.mem_map_of_mem Prod.fst h2) hn.1
        · rw [Bool.of_not_eq_true hk]
          exact ih hn.2 h2

/-! ## C10: version comparison -/

/-- C10 (counterexample): the claim says `"1.2.beta"` compares as
`(1, 2, 0)`, equal to `"1.2.0"` and greater than `"1.1.9"`.  In the
code the failed `int` conversion of the single component `"beta"`
replaces the whole tuple by `(0, 0, 0)`, so `"1.2.beta"` compares LESS
than both. -/
theorem compare_versions_componentwise_counterexample :
    compareVersions "1.2.beta" "1.1.9" = -1 ∧
      compareVersions "1.2.beta" "1.2.0" = -1 := by
  constructor <;> decide

/-- C10 (amended): `_compare_versions` splits on `'.'` and compares
component-wise as integer tuples when every component parses, but a
version with ANY non-numeric component normalises wholesale to
`(0, 0, 0)` — the numeric components do not keep their values. -/
theorem compare_versions_nonnumeric_all_zero (v1 v2 : String)
    (h : ¬ ∀ p ∈ splitOnChar '.' v1, (pyInt? p).isSome = true) :
    normalizeVersion v1 = [0, 0, 0] ∧
      compareVersions v1 v2 = tupleCompare [0, 0, 0] (normalizeVersion v2) := by
  have hall : ((splitOnChar '.' v1).map pyInt?).all Option.isSome = false := by
    rw [List.all_eq_false]
    push_neg at h
    obtain ⟨p, hp, hns⟩ := h
    exact ⟨pyInt? p, List.mem_map_of_mem pyInt? hp, by simpa using hns⟩
  have hnorm : normalizeVersion v1 = [0, 0, 0] := by
    unfold normalizeVersion
    rw [hall]
    simp
  exact ⟨hnorm, by unfold compareVersions; rw [hnorm]⟩

/-- C10 (witness). -/
theorem compare_versions_nonnumeric_all_zero_witness :
    normalizeVersion "1.2.beta" = [0, 0, 0] ∧
      compareVersions "1.2.beta" "1.1.9" = tupleCompare [0, 0, 0] (normalizeVersion "1.1.9") :=
  compare_versions_nonnumeric_all_zero "1.2.beta" "1.1.9" (by decide)

/-! ## C5: `get_all_dependencies(_, recursive=True)` -/

/-- C5: the recursive branch of `get_all_dependencies` returns the empty
list for EVERY registry and mod id: the BFS queue starts as
`[mod_id]`, the first iteration skips the popped origin
(`current_id == mod_id`) without enqueueing its dependencies, and the
loop ends — contradicting both the docstring and the specification,
which require the transitively reachable dependency ids. -/
theorem get_all_dependencies_recursive_empty (registry : Registry) (mod_id : String) :
    getAllDependencies registry mod_id true = [] := by
  unfold getAllDependencies
  cases h : registry.lookup mod_id with
  | none => rfl
  | some m =>
      simp only [Bool.not_true]
      rw [if_neg (by simp)]
      rw [gadLoop]
      rw [if_pos (Or.inr rfl)]
      rw [gadLoop]

/-! ## C4: `deploy_profile` raises `TypeError` up front -/

/-- C4: for every engine world, profile and hash oracle,
`deploy_profile` returns the `TypeError` raised by the `with_rollback`
wrapper's zero-argument call to `create_checkpoint`, with the world
(filesystem, database, event trace) unchanged — so neither game-path
validation nor any filesystem mutation happens. -/
theorem deploy_profile_typeerror (hash : String → String) (w : EngineWorld)
    (profile : Profile) :
    deployProfile hash w profile =
      (.error (.typeError
        "create_checkpoint() missing 1 required positional argument: profile"), w) := rfl

/-! ## C3: rollback on apply failure -/

/-- C3: the claim says an exception during apply triggers rollback and
surfaces as `DeploymentFailedError`.  In the code the decorated
`deploy_profile` never records a rollback and never raises
`DeploymentFailedError`: the wrapper's broken checkpoint call fails
first on every input. -/
theorem deploy_profile_never_rolls_back (hash : String → String) (w : EngineWorld)
    (profile : Profile) :
    (deployProfile hash w profile).2.events.filter isRollbackEvent =
        w.events.filter isRollbackEvent ∧
      isDeploymentFailedRes (deployProfile hash w profile).1 = false := ⟨rfl, rfl⟩

/-! ## C9: `HashCache.get` -/

/-- C9: `HashCache.get` returns a hit only when the file's current stat
mtime and size both equal the cached values, and on any cached entry
whose mtime or size changed it returns a miss and deletes the entry
(without ever consulting the content hash). -/
theorem hashcache_get_stat_guard (stat : StatFn) (hc : HashCache) (p : String) :
    (∀ h, (HashCache.get stat hc p).1 = some h →
        ∃ m s, hc.cache.lookup p = some (h, m, s) ∧ stat p = some (m, s)) ∧
      (∀ h m s m' s', hc.cache.lookup p = some (h, m, s) →
        stat p = some (m', s') → (m' ≠ m ∨ s' ≠ s) →
        (HashCache.get stat hc p).1 = none ∧
          ((HashCache.get stat hc p).2.cache.lookup p = none)) := by
  constructor
  · intro h hres
    unfold HashCache.get at hres
    split at hres
    · simp at hres
    · split at hres
      · simp at hres
      · split at hres
        · rename_i x1 hv mv sv hcl x2 m' s' hst heq
          simp only [Option.some.injEq] at hres
          exact ⟨mv, sv, by rw [hcl, hres], by rw [hst, heq.1, heq.2]⟩
        · simp at hres
  · intro h m s m' s' hcl hst hne
    have hnot : ¬ (m' = m ∧ s' = s) := by
      intro hc'
      rcases hne with h1 | h1 <;> exact h1 (by simp [hc'.1, hc'.2])
    have hmiss : HashCache.get stat hc p =
        (none, { hc with cache := hc.cache.filter (fun q => q.1 ≠ p) }) := by
      unfold HashCache.get
      rw [hcl, hst]
      simp [hnot]
    refine ⟨by rw [hmiss], ?_⟩
    rw [hmiss]
    simp only []
    rw [lookup_none_iff]
    intro hcmem
    rcases List.mem_map.mp hcmem with ⟨q, hq, hq1⟩
    have := (List.mem_filter.mp hq).2
    simp [hq1] at this

/-- C9 (witness): a cached entry whose mtime changed while size stayed
equal misses and is deleted. -/
theorem hashcache_get_stat_guard_witness :
    (HashCache.get (fun _ => some (6, 7)) ⟨[("f", "h", 5, 7)], 1000⟩ "f").1 = none ∧
      ((HashCache.get (fun _ => some (6, 7)) ⟨[("f", "h", 5, 7)], 1000⟩ "f").2.cache.lookup "f"
        = none) :=
  (hashcache_get_stat_guard (fun _ => some (6, 7)) ⟨[("f", "h", 5, 7)], 1000⟩ "f").2
    "h" 5 7 6 7 rfl rfl (by decide)

/-! ## C8: `_remove_file` and the upward directory walk -/

/-- The embedded walk is fuel-stable once the fuel reaches the number of
existing directories: each iteration deletes one of them. -/
theorem removeEmptyParents_fuel_stable :
    ∀ (fuel : Nat) (fs : FS) (parent : List String), fs.dirs.length ≤ fuel →
      removeEmptyParents fs fuel parent = removeEmptyParents fs (fuel + 1) parent := by
  intro fuel
  induction fuel with
  | zero =>
      intro fs parent hlen
      have hnil : fs.dirs = [] := List.length_eq_zero.mp (Nat.le_zero.mp hlen)
      rw [removeEmptyParents, removeEmptyParents, if_neg]
      intro hg
      rw [hnil] at hg
      exact absurd hg.1 (by simp)
  | succ f ih =>
      intro fs parent hlen
      rw [removeEmptyParents]
      conv_rhs => rw [removeEmptyParents]
      by_cases hg : parent ∈ fs.dirs ∧ dirNonempty fs parent = false
      · rw [if_pos hg, if_pos hg]
        apply ih
        have hpos : 0 < fs.dirs.length := List.length_pos.mpr
          (by intro hnil; rw [hnil] at hg; exact absurd hg.1 (by simp))
        rw [List.length_erase_of_mem hg.1]
        omega
      · rw [if_neg hg, if_neg hg]

/-- A directory with a file strictly below it has at least one entry. -/
theorem dirNonempty_of_under {fs : FS} {d : List String}
    (hwf : dirClosedFS fs) (hsurv : ∃ fc ∈ fs.files, underDir d fc.1 = true) :
    dirNonempty fs d = true := by
  obtain ⟨fc, hmem, hunder⟩ := hsurv
  unfold underDir at hunder
  simp only [Bool.and_eq_true, decide_eq_true_eq, beq_iff_eq] at hunder
  obtain ⟨hlt, htake⟩ := hunder
  unfold dirNonempty
  rw [Bool.or_eq_true]
  rcases Nat.lt_or_ge (d.length + 1) fc.1.length with hfar | hnear
  · -- a child directory of d on the way to the file
    right
    rw [List.any_eq_true]
    refine ⟨fc.1.take (d.length + 1), hwf fc hmem (d.length + 1) (Nat.succ_pos _) hfar, ?_⟩
    have hlen : (fc.1.take (d.length + 1)).length = d.length + 1 := by
      rw [List.length_take]
      omega
    rw [Bool.and_eq_true, decide_eq_true_eq, beq_iff_eq]
    refine ⟨hlen, ?_⟩
    rw [List.dropLast_eq_take, hlen]
    simp only [Nat.add_sub_cancel]
    rw [List.take_take]
    simpa [Nat.min_def] using htake
  · -- the file itself is a direct child of d
    left
    rw [List.any_eq_true]
    refine ⟨fc, hmem, ?_⟩
    have hlen : fc.1.length = d.length + 1 := by omega
    rw [Bool.and_eq_true, decide_eq_true_eq, beq_iff_eq]
    refine ⟨hlen, ?_⟩
    rw [List.dropLast_eq_take, hlen]
    simpa [Nat.add_sub_cancel] using htake

/-- The walk never removes a directory that still has a file strictly
below it. -/
theorem removeEmptyParents_keeps (d : List String) :
    ∀ (fuel : Nat) (fs : FS) (parent : List String),
      dirClosedFS fs → d ∈ fs.dirs →
      (∃ fc ∈ fs.files, underDir d fc.1 = true) →
      d ∈ (removeEmptyParents fs fuel parent).dirs := by
  intro fuel
  induction fuel with
  | zero => intro fs parent _ hd _; simpa [removeEmptyParents] using hd
  | succ f ih =>
      intro fs parent hwf hd hsurv
      rw [removeEmptyParents]
      by_cases hg : parent ∈ fs.dirs ∧ dirNonempty fs parent = false
      · rw [if_pos hg]
        have hdne : dirNonempty fs d = true := dirNonempty_of_under hwf hsurv
        have hpd : d ≠ parent := by
          intro he
          rw [he] at hdne
          rw [hdne] at hg
          exact absurd hg.2 (by simp)
        apply ih
        · -- directory closure survives: no surviving file has `parent` above it
          intro fc hmem k hk0 hklt
          have hin : fc.1.take k ∈ fs.dirs := hwf fc hmem k hk0 hklt
          have hne : fc.1.take k ≠ parent := by
            intro he
            have : dirNonempty fs parent = true := by
              apply dirNonempty_of_under hwf
              refine ⟨fc, hmem, ?_⟩
              unfold underDir
              rw [Bool.and_eq_true, decide_eq_true_eq, beq_iff_eq]
              have hklen : parent.length = k := by rw [← he, List.length_take]; omega
              constructor
              · omega
              · rw [hklen, ← he]
            rw [this] at hg
            exact absurd hg.2 (by simp)
          simpa [List.mem_erase_of_ne hne] using hin
        · simpa [List.mem_erase_of_ne hpd] using hd
        · exact hsurv
      · rw [if_neg hg]; exact hd

/-- C8 (counterexample): removing the last mod file deletes the emptied
mod directory, the plugins directory, `BepInEx`, and the TARGET ROOT
`["game"]` itself, stopping only at the filesystem root (non-empty here
because of an unrelated file) — the claim's stop at the target root does
not exist in the code. -/
theorem remove_file_removes_target_root_counterexample :
    (removeFile
      { files := [(["other"], "x"), (["game", "BepInEx", "plugins", "A-a", "f.dll"], "c")],
        dirs := [[], ["game"], ["game", "BepInEx"], ["game", "BepInEx", "plugins"],
                 ["game", "BepInEx", "plugins", "A-a"]] }
      ["game", "BepInEx", "plugins", "A-a", "f.dll"]).dirs = [[]] := by decide

/-- C8 (amended): after deleting the file the helper walks upward
removing now-empty parent directories, stopping only at the first
directory that still has an entry (or does not exist); there is no
target-root boundary, so the target root and directories above it are
removed when they become empty.  In particular a directory that still
has a file strictly below it is never removed. -/
theorem remove_file_preserves_inhabited_dirs (fs : FS) (p d : List String)
    (hwf : dirClosedFS fs) (hd : d ∈ fs.dirs)
    (hsurv : ∃ fc ∈ fs.files, fc.1 ≠ p ∧ underDir d fc.1 = true) :
    d ∈ (removeFile fs p).dirs := by
  unfold removeFile
  by_cases hp : p ∈ fs.files.map (·.1)
  · rw [if_pos hp]
    apply removeEmptyParents_keeps
    · intro fc hmem k hk0 hklt
      exact hwf fc (List.mem_of_mem_filter hmem) k hk0 hklt
    · exact hd
    · obtain ⟨fc, hmem, hne, hunder⟩ := hsurv
      exact ⟨fc, List.mem_filter.mpr ⟨hmem, by simpa using hne⟩, hunder⟩
  · rw [if_neg hp]; exact hd

/-- C8 (witness). -/
theorem remove_file_preserves_inhabited_dirs_witness :
    ["d"] ∈ (removeFile
      { files := [(["d", "keep.txt"], "x"), (["d", "sub", "f.dll"], "c")],
        dirs := [["d"], ["d", "sub"]] }
      ["d", "sub", "f.dll"]).dirs :=
  remove_file_preserves_inhabited_dirs
    { files := [(["d", "keep.txt"], "x"), (["d", "sub", "f.dll"], "c")],
      dirs := [["d"], ["d", "sub"]] }
    ["d", "sub", "f.dll"] ["d"] (by decide) (by decide)
    ⟨(["d", "keep.txt"], "x"), by decide, by decide, by decide⟩

/-! ## C7: `calculate_changes` run twice -/

/-- A fold preserves any invariant its step preserves. -/
theorem foldl_preserve {α σ : Type} (P : σ → Prop) (f : σ → α → σ)
    (h : ∀ s a, P s → P (f s a)) : ∀ (l : List α) (s : σ), P s → P (l.foldl f s) := by
  intro l
  induction l with
  | nil => intro s hs; exact hs
  | cons a rest ih => intro s hs; exact ih (f s a) (h s a hs)

/-- Dictionary insert-or-overwrite keeps the keys duplicate-free. -/
theorem upsert_keys_nodup {st : List (List String × String)} {k : List String} {v : String}
    (h : (st.map Prod.fst).Nodup) : ((upsert st k v).map Prod.fst).Nodup := by
  unfold upsert
  by_cases hs : (st.lookup k).isSome
  · rw [if_pos hs]
    have : (st.map (fun p => if p.1 = k then (p.1, v) else p)).map Prod.fst
        = st.map Prod.fst := by
      rw [List.map_map]
      apply List.map_congr_left
      intro p _
      by_cases hp : p.1 = k <;> simp [hp]
    rw [this]
    exact h
  · rw [if_neg hs]
    have hk : k ∉ st.map Prod.fst := by
      rw [← lookup_none_iff]
      exact Option.not_isSome_iff_eq_none.mp hs
    rw [List.map_append]
    simp only [List.map_cons, List.map_nil]
    refine List.Nodup.append h (List.nodup_singleton k) ?_
    intro a ha hb
    rw [List.mem_singleton] at hb
    exact hk (hb ▸ ha)

/-- The desired-state map built by `calculate_changes` has
duplicate-free keys. -/
theorem desiredState_keys_nodup (hash : String → String) (fs : FS)
    (gp : List String) (ms : List Mod) :
    ((desiredState hash fs gp ms).map Prod.fst).Nodup := by
  unfold desiredState
  have hinit : (([] : List (List String × String)).map Prod.fst).Nodup := by simp
  refine foldl_preserve
    (fun (st : List (List String × String)) => (st.map Prod.fst).Nodup) _ ?_ ms [] hinit
  intro st m hst
  cases m.install_path with
  | none => exact hst
  | some ip =>
      simp only []
      by_cases hd : ip ∈ fs.dirs
      · rw [if_pos hd]
        refine foldl_preserve
          (fun (st : List (List String × String)) => (st.map Prod.fst).Nodup) _ ?_ _ _ hst
        intro st' src h'
        exact upsert_keys_nodup h'
      · rw [if_neg hd]; exact hst

/-- C7 (counterexample): `calculate_changes` mutates neither the
filesystem nor the stored deployment state, so a second call with
nothing changed in between returns exactly the same lists as the first —
here a non-empty `to_add` — not empty lists as the claim states. -/
theorem calculate_changes_second_call_nonempty_counterexample :
    (calculateChanges (fun s => s)
        { files := [(["m", "A-a", "p.dll"], "c")], dirs := [["m", "A-a"]] }
        [] ["g"]
        [{ id := "A-a", name := "A", version := "1.0.0", dependencies := [],
           install_path := some ["m", "A-a"] }]) =
      (calculateChanges (fun s => s)
        { files := [(["m", "A-a", "p.dll"], "c")], dirs := [["m", "A-a"]] }
        [] ["g"]
        [{ id := "A-a", name := "A", version := "1.0.0", dependencies := [],
           install_path := some ["m", "A-a"] }]) ∧
    (calculateChanges (fun s => s)
        { files := [(["m", "A-a", "p.dll"], "c")], dirs := [["m", "A-a"]] }
        [] ["g"]
        [{ id := "A-a", name := "A", version := "1.0.0", dependencies := [],
           install_path := some ["m", "A-a"] }]).to_add =
      [["g", "BepInEx", "plugins", "A-a", "p.dll"]] := ⟨rfl, by decide⟩

/-- C7 (amended): `calculate_changes` is read-only, so a repeated call
returns the same result; its three lists are all empty exactly when the
desired file→fingerprint map coincides (as a lookup table) with the
stored deployment state — e.g. right after a completed deployment, but
not in general. -/
theorem calculate_changes_empty_iff (hash : String → String) (fs : FS)
    (cs : List (List String × String)) (gp : List String) (ms : List Mod) :
    ((calculateChanges hash fs cs gp ms).to_add = [] ∧
        (calculateChanges hash fs cs gp ms).to_update = [] ∧
        (calculateChanges hash fs cs gp ms).to_remove = []) ↔
      (∀ k, (desiredState hash fs gp ms).lookup k = cs.lookup k) := by
  unfold calculateChanges
  simp only [List.map_eq_nil_iff, List.filter_eq_nil_iff]
  constructor
  · intro ⟨hadd, hupd, hrem⟩ k
    cases hN : (desiredState hash fs gp ms).lookup k with
    | some v =>
        have hmem : (k, v) ∈ desiredState hash fs gp ms := lookup_some_mem hN
        have hsome : ¬ ((cs.lookup k).isNone = true) := by
          have := hadd (k, v) hmem
          simpa using this
        cases hcs : cs.lookup k with
        | none => rw [hcs] at hsome; simp at hsome
        | some h =>
            have := hupd (k, v) hmem
            rw [hcs] at this
            simp only [decide_eq_true_eq] at this
            rw [Classical.not_not] at this
            rw [this]
    | none =>
        cases hcs : cs.lookup k with
        | none => rfl
        | some h =>
            have hmem : (k, h) ∈ cs := lookup_some_mem hcs
            have := hrem (k, h) hmem
            rw [hN] at this
            simp at this
  · intro heq
    refine ⟨?_, ?_, ?_⟩
    · intro kv hmem
      have hlk : (desiredState hash fs gp ms).lookup kv.1 = some kv.2 :=
        lookup_of_mem_nodupkeys (desiredState_keys_nodup hash fs gp ms) hmem
      rw [← heq kv.1, hlk]
      simp
    · intro kv hmem
      have hlk : (desiredState hash fs gp ms).lookup kv.1 = some kv.2 :=
        lookup_of_mem_nodupkeys (desiredState_keys_nodup hash fs gp ms) hmem
      rw [← heq kv.1, hlk]
      simp
    · intro kv hmem
      have := mem_lookup_isSome hmem
      rw [← heq kv.1] at this
      simpa using this

/-- C7 (witness): with no mods and an empty stored state, both sides of
the characterisation hold. -/
theorem calculate_changes_empty_iff_witness :
    (calculateChanges (fun s => s) { files := [], dirs := [] } [] ["g"] []).to_add = [] ∧
      (calculateChanges (fun s => s) { files := [], dirs := [] } [] ["g"] []).to_update = [] ∧
      (calculateChanges (fun s => s) { files := [], dirs := [] } [] ["g"] []).to_remove = [] :=
  (calculate_changes_empty_iff (fun s => s) { files := [], dirs := [] } [] ["g"] []).mpr
    (fun _ => rfl)

/-! ## Resolver: colour-state lemmas -/

theorem colorOf_paint (x : String) (v : Nat) (c : Colors) (y : String) :
    colorOf (paint x v c) y = if y = x then v else colorOf c y := by
  unfold paint colorOf
  rw [List.lookup]
  by_cases h : y = x
  · rw [if_pos h]
    have hb : (y == x) = true := beq_iff_eq.mpr h
    rw [hb]
    rfl
  · rw [if_neg h]
    have hb : (y == x) = false := by
      rw [beq_eq_false_iff_ne]
      exact h
    rw [hb]

theorem filter_length_mono {α : Type} (p q : α → Bool) :
    ∀ (l : List α), (∀ a ∈ l, p a = true → q a = true) →
      (l.filter p).length ≤ (l.filter q).length := by
  intro l
  induction l with
  | nil => intro _; simp
  | cons a rest ih =>
      intro h
      rw [List.filter_cons, List.filter_cons]
      by_cases hp : p a = true
      · rw [if_pos hp, if_pos (h a (List.mem_cons_self a rest) hp)]
        simpa using ih (fun b hb => h b (List.mem_cons_of_mem a hb))
      · rw [if_neg hp]
        have hle := ih (fun b hb => h b (List.mem_cons_of_mem a hb))
        by_cases hq : q a = true
        · rw [if_pos hq]
          simp only [List.length_cons]
          omega
        · rw [if_neg hq]
          exact hle

/-- Painting a non-white colour never increases the white count. -/
theorem whites_paint_le (g : Graph) (c : Colors) (x : String) (v : Nat)
    (hv : v ≠ 0) : whites g (paint x v c) ≤ whites g c := by
  unfold whites
  apply filter_length_mono
  intro y _ hy
  rw [decide_eq_true_eq] at hy
  rw [colorOf_paint] at hy
  by_cases h : y = x
  · rw [if_pos h] at hy; exact absurd hy hv
  · rw [if_neg h] at hy; simpa using hy

/-- Painting a white key grey decreases the white count by exactly
one. -/
theorem whites_paint_gray (g : Graph) (c : Colors) (x : String)
    (hnd : (keys g).Nodup) (hx : x ∈ keys g) (hw : colorOf c x = 0) :
    whites g (paint x 1 c) + 1 = whites g c := by
  unfold whites
  have main : ∀ (l : List String), l.Nodup → x ∈ l →
      (l.filter (fun y => decide (colorOf (paint x 1 c) y = 0))).length + 1 =
        (l.filter (fun y => decide (colorOf c y = 0))).length := by
    intro l
    induction l with
    | nil => intro _ hmem; simp at hmem
    | cons a rest ih =>
        intro hnd' hmem
        rw [List.nodup_cons] at hnd'
        rw [List.filter_cons, List.filter_cons]
        by_cases ha : a = x
        · subst ha
          have h1 : (decide (colorOf (paint a 1 c) a = 0)) = false := by
            rw [colorOf_paint, if_pos rfl]
            simp
          have h2 : (decide (colorOf c a = 0)) = true := by
            rw [decide_eq_true_eq]; exact hw
          rw [h1, h2]
          simp only [Bool.false_eq_true, if_false, if_true, List.length_cons]
          have : rest.filter (fun y => decide (colorOf (paint a 1 c) y = 0)) =
              rest.filter (fun y => decide (colorOf c y = 0)) := by
            apply List.filter_congr
            intro y hy
            have hne : y ≠ a := fun he => hnd'.1 (he ▸ hy)
            rw [colorOf_paint, if_neg hne]
          rw [this]
        · have hxr : x ∈ rest := by
            rcases List.mem_cons.mp hmem with h1 | h1
            · exact absurd h1.symm ha
            · exact h1
          have hsame : (decide (colorOf (paint x 1 c) a = 0)) =
              (decide (colorOf c a = 0)) := by
            rw [colorOf_paint, if_neg ha]
          rw [hsame]
          by_cases hca : decide (colorOf c a = 0) = true
          · rw [hca]
            simp only [if_true, List.length_cons]
            have := ih hnd'.2 hxr
            omega
          · rw [Bool.of_not_eq_true hca]
            simp only [Bool.false_eq_true, if_false]
            exact ih hnd'.2 hxr
  exact main (keys g) hnd hx

/-! ## Resolver: graph construction lemmas -/

theorem lookup_append {α β : Type} [BEq α] :
    ∀ (l₁ l₂ : List (α × β)) (k : α),
      (l₁ ++ l₂).lookup k = ((l₁.lookup k).or (l₂.lookup k)) := by
  intro l₁
  induction l₁ with
  | nil => intro l₂ k; simp [List.lookup]
  | cons p rest ih =>
      intro l₂ k
      rw [List.cons_append, List.lookup, List.lookup]
      cases hk : k == p.1 with
      | true => simp
      | false => simpa using ih l₂ k

theorem lookup_isSome_iff_mem_keys (g : Graph) (y : String) :
    (g.lookup y).isSome = true ↔ y ∈ keys g := by
  unfold keys
  constructor
  · intro h
    by_contra hy
    have hn : g.lookup y = none := lookup_none_iff.mpr hy
    rw [hn] at h
    simp at h
  · intro h
    cases hl : g.lookup y with
    | some v => simp
    | none => exact absurd h (lookup_none_iff.mp hl)

theorem adj_graphAddNode (g : Graph) (x y : String) :
    adj (graphAddNode g x) y = adj g y := by
  unfold graphAddNode
  by_cases hs : (g.lookup x).isSome
  · rw [if_pos hs]
  · rw [if_neg hs]
    unfold adj
    rw [lookup_append]
    cases hl : g.lookup y with
    | some v => simp
    | none =>
        simp only [Option.or]
        rw [List.lookup, List.lookup]
        cases hk : y == x with
        | true => simp
        | false => simp [List.lookup]

theorem mem_keys_graphAddNode (g : Graph) (x y : String) :
    y ∈ keys (graphAddNode g x) ↔ y ∈ keys g ∨ y = x := by
  unfold graphAddNode
  by_cases hs : (g.lookup x).isSome
  · rw [if_pos hs]
    constructor
    · intro h; exact Or.inl h
    · intro h
      rcases h with h | h
      · exact h
      · rw [h]; exact (lookup_isSome_iff_mem_keys g x).mp hs
  · rw [if_neg hs]
    unfold keys
    rw [List.map_append]
    simp

theorem keys_nodup_graphAddNode (g : Graph) (x : String)
    (h : (keys g).Nodup) : (keys (graphAddNode g x)).Nodup := by
  unfold graphAddNode
  by_cases hs : (g.lookup x).isSome
  · rw [if_pos hs]; exact h
  · rw [if_neg hs]
    unfold keys
    rw [List.map_append]
    simp only [List.map_cons, List.map_nil]
    refine List.Nodup.append h (List.nodup_singleton x) ?_
    intro a ha hb
    rw [List.mem_singleton] at hb
    have hx : x ∉ g.map Prod.fst := by
      rw [← lookup_none_iff]
      exact Option.not_isSome_iff_eq_none.mp hs
    exact hx (hb ▸ ha)

theorem keys_graphAddEdge (g : Graph) (u v : String) :
    keys (graphAddEdge g u v) = keys g := by
  unfold graphAddEdge keys
  rw [List.map_map]
  apply List.map_congr_left
  intro p _
  by_cases hp : p.1 = u <;> simp [hp]

theorem adj_graphAddEdge_ne (g : Graph) (u v y : String) (hy : y ≠ u) :
    adj (graphAddEdge g u v) y = adj g y := by
  unfold graphAddEdge adj
  induction g with
  | nil => simp
  | cons p rest ih =>
      rw [List.map_cons, List.lookup, List.lookup]
      by_cases hp : p.1 = u
      · rw [if_pos hp]
        have hk : (y == p.1) = false := by
          rw [beq_eq_false_iff_ne]
          rw [hp]
          exact hy
        simp only [hk]
        simpa using ih
      · rw [if_neg hp]
        cases hk : y == p.1 with
        | true => simp
        | false => simpa using ih

theorem adj_graphAddEdge_self (g : Graph) (u v : String) (hu : u ∈ keys g) :
    adj (graphAddEdge g u v) u =
      if v ∈ adj g u then adj g u else adj g u ++ [v] := by
  unfold graphAddEdge adj
  induction g with
  | nil => simp [keys] at hu
  | cons p rest ih =>
      rw [List.map_cons, List.lookup, List.lookup]
      by_cases hp : p.1 = u
      · rw [if_pos hp]
        have hk : (u == p.1) = true := beq_iff_eq.mpr hp.symm
        simp only [hk]
        simp
      · rw [if_neg hp]
        have hk : (u == p.1) = false := by
          rw [beq_eq_false_iff_ne]
          exact fun he => hp he.symm
        simp only [hk]
        have hur : u ∈ keys rest := by
          unfold keys at hu ⊢
          rcases List.mem_cons.mp hu with h1 | h1
          · exact absurd h1.symm hp
          · exact h1
        simpa using ih hur

theorem adj_graphAddEdge_notkey (g : Graph) (u v : String) (hu : u ∉ keys g) :
    adj (graphAddEdge g u v) u = adj g u := by
  have h1 : (g.lookup u) = none := lookup_none_iff.mpr hu
  have h2 : ((graphAddEdge g u v).lookup u) = none := by
    rw [lookup_none_iff]
    intro hmem
    apply hu
    have hk := keys_graphAddEdge g u v
    unfold keys at hk
    have hmem' : u ∈ (graphAddEdge g u v).map (fun x => x.1) := hmem
    rw [hk] at hmem'
    exact hmem'
  unfold adj
  rw [h1, h2]

theorem mem_adj_graphAddEdge (g : Graph) (u v y w : String) :
    w ∈ adj (graphAddEdge g u v) y ↔
      w ∈ adj g y ∨ (y = u ∧ w = v ∧ u ∈ keys g) := by
  by_cases hy : y = u
  · subst hy
    by_cases hu : y ∈ keys g
    · rw [adj_graphAddEdge_self g y v hu]
      by_cases hv : v ∈ adj g y
      · rw [if_pos hv]
        constructor
        · intro h; exact Or.inl h
        · intro h
          rcases h with h | h
          · exact h
          · rw [h.2.1]; exact hv
      · rw [if_neg hv]
        rw [List.mem_append, List.mem_singleton]
        constructor
        · intro h
          rcases h with h | h
          · exact Or.inl h
          · exact Or.inr ⟨rfl, h, hu⟩
        · intro h
          rcases h with h | h
          · exact Or.inl h
          · exact Or.inr h.2.1
    · rw [adj_graphAddEdge_notkey g y v hu]
      constructor
      · intro h; exact Or.inl h
      · intro h
        rcases h with h | h
        · exact h
        · exact absurd h.2.2 hu
  · rw [adj_graphAddEdge_ne g u v y hy]
    constructor
    · intro h; exact Or.inl h
    · intro h
      rcases h with h | h
      · exact h
      · exact absurd h.1 hy

theorem adj_nodup_graphAddEdge (g : Graph) (u v : String)
    (h : ∀ x, (adj g x).Nodup) : ∀ x, (adj (graphAddEdge g u v) x).Nodup := by
  intro x
  by_cases hx : x = u
  · subst hx
    by_cases hu : x ∈ keys g
    · rw [adj_graphAddEdge_self g x v hu]
      by_cases hv : v ∈ adj g x
      · rw [if_pos hv]; exact h x
      · rw [if_neg hv]
        refine List.Nodup.append (h x) (List.nodup_singleton v) ?_
        intro a ha hb
        rw [List.mem_singleton] at hb
        exact hv (hb ▸ ha)
    · rw [adj_graphAddEdge_notkey g x v hu]; exact h x
  · rw [adj_graphAddEdge_ne g u v x hx]; exact h x

theorem keys_edgeFold (u : String) :
    ∀ (ds : List ModDependency) (g : Graph),
      keys (ds.foldl (fun g' dep => graphAddEdge g' u dep.mod_id) g) = keys g := by
  intro ds
  induction ds with
  | nil => intro g; rfl
  | cons d rest ih =>
      intro g
      rw [List.foldl_cons, ih, keys_graphAddEdge]

theorem mem_adj_edgeFold (u : String) :
    ∀ (ds : List ModDependency) (g : Graph) (y w : String),
      w ∈ adj (ds.foldl (fun g' dep => graphAddEdge g' u dep.mod_id) g) y ↔
        w ∈ adj g y ∨ (y = u ∧ u ∈ keys g ∧ ∃ d ∈ ds, d.mod_id = w) := by
  intro ds
  induction ds with
  | nil => intro g y w; simp
  | cons d rest ih =>
      intro g y w
      rw [List.foldl_cons, ih, keys_graphAddEdge, mem_adj_graphAddEdge]
      constructor
      · intro h
        rcases h with (h | h) | h
        · exact Or.inl h
        · exact Or.inr ⟨h.1, h.2.2, d, List.mem_cons_self d rest, h.2.1.symm⟩
        · exact Or.inr ⟨h.1, h.2.1, by
            obtain ⟨d', hd', hw⟩ := h.2.2
            exact ⟨d', List.mem_cons_of_mem d hd', hw⟩⟩
      · intro h
        rcases h with h | ⟨hy, hu, d', hd', hw⟩
        · exact Or.inl (Or.inl h)
        · rcases List.mem_cons.mp hd' with h1 | h1
          · exact Or.inl (Or.inr ⟨hy, by rw [← hw, h1], hu⟩)
          · exact Or.inr ⟨hy, hu, d', h1, hw⟩

theorem adj_nodup_edgeFold (u : String) :
    ∀ (ds : List ModDependency) (g : Graph),
      (∀ x, (adj g x).Nodup) →
      ∀ x, (adj (ds.foldl (fun g' dep => graphAddEdge g' u dep.mod_id) g) x).Nodup := by
  intro ds
  induction ds with
  | nil => intro g h; exact h
  | cons d rest ih =>
      intro g h
      rw [List.foldl_cons]
      exact ih _ (adj_nodup_graphAddEdge g u d.mod_id h)

theorem mem_keys_depGraphStep (g : Graph) (m : Mod) (y : String) :
    y ∈ keys (depGraphStep g m) ↔ y ∈ keys g ∨ y = m.id := by
  unfold depGraphStep
  rw [keys_edgeFold, mem_keys_graphAddNode]

theorem mem_adj_depGraphStep (g : Graph) (m : Mod) (y w : String) :
    w ∈ adj (depGraphStep g m) y ↔
      w ∈ adj g y ∨ (y = m.id ∧ ∃ d ∈ m.dependencies, d.mod_id = w) := by
  unfold depGraphStep
  rw [mem_adj_edgeFold]
  have hmem : m.id ∈ keys (graphAddNode g m.id) :=
    (mem_keys_graphAddNode g m.id m.id).mpr (Or.inr rfl)
  rw [adj_graphAddNode]
  constructor
  · intro h
    rcases h with h | h
    · exact Or.inl h
    · exact Or.inr ⟨h.1, h.2.2⟩
  · intro h
    rcases h with h | h
    · exact Or.inl h
    · exact Or.inr ⟨h.1, hmem, h.2⟩

theorem graphInv_depGraphStep (g : Graph) (m : Mod) (h : GraphInv g) :
    GraphInv (depGraphStep g m) := by
  obtain ⟨hk, ha⟩ := h
  constructor
  · unfold depGraphStep
    rw [keys_edgeFold]
    exact keys_nodup_graphAddNode g m.id hk
  · unfold depGraphStep
    apply adj_nodup_edgeFold
    intro x
    rw [adj_graphAddNode]
    exact ha x

theorem mem_keys_depGraph_aux :
    ∀ (mods : List Mod) (g0 : Graph) (y : String),
      y ∈ keys (mods.foldl depGraphStep g0) ↔ y ∈ keys g0 ∨ y ∈ mods.map (·.id) := by
  intro mods
  induction mods with
  | nil => intro g0 y; simp
  | cons m rest ih =>
      intro g0 y
      rw [List.foldl_cons, ih, mem_keys_depGraphStep]
      simp only [List.map_cons, List.mem_cons]
      tauto

/-- The keys of the dependency graph are exactly the input mod ids. -/
theorem mem_keys_depGraph (mods : List Mod) (y : String) :
    y ∈ keys (depGraph mods) ↔ y ∈ mods.map (·.id) := by
  unfold depGraph
  rw [mem_keys_depGraph_aux]
  simp [keys]

theorem mem_adj_depGraph_aux :
    ∀ (mods : List Mod) (g0 : Graph) (y w : String),
      w ∈ adj (mods.foldl depGraphStep g0) y ↔
        w ∈ adj g0 y ∨ ∃ m ∈ mods, m.id = y ∧ ∃ d ∈ m.dependencies, d.mod_id = w := by
  intro mods
  induction mods with
  | nil => intro g0 y w; simp
  | cons m rest ih =>
      intro g0 y w
      rw [List.foldl_cons, ih, mem_adj_depGraphStep]
      constructor
      · intro h
        rcases h with (h | h) | h
        · exact Or.inl h
        · exact Or.inr ⟨m, List.mem_cons_self m rest, h.1.symm, h.2⟩
        · obtain ⟨m', hm', hy, hd⟩ := h
          exact Or.inr ⟨m', List.mem_cons_of_mem m hm', hy, hd⟩
      · intro h
        rcases h with h | ⟨m', hm', hy, hd⟩
        · exact Or.inl (Or.inl h)
        · rcases List.mem_cons.mp hm' with h1 | h1
          · exact Or.inl (Or.inr ⟨hy.symm ▸ congrArg Mod.id h1.symm ▸ rfl, by
              subst h1; exact hd⟩)
          · exact Or.inr ⟨m', h1, hy, hd⟩

/-- The edges of the dependency graph are exactly the declared
dependencies. -/
theorem mem_adj_depGraph (mods : List Mod) (y w : String) :
    w ∈ adj (depGraph mods) y ↔
      ∃ m ∈ mods, m.id = y ∧ ∃ d ∈ m.dependencies, d.mod_id = w := by
  unfold depGraph
  rw [mem_adj_depGraph_aux]
  simp [adj, List.lookup]

/-- The built dependency graph satisfies the structural invariant. -/
theorem graphInv_depGraph (mods : List Mod) : GraphInv (depGraph mods) := by
  unfold depGraph
  have : ∀ (ms : List Mod) (g0 : Graph), GraphInv g0 → GraphInv (ms.foldl depGraphStep g0) := by
    intro ms
    induction ms with
    | nil => intro g0 h; exact h
    | cons m rest ih =>
        intro g0 h
        rw [List.foldl_cons]
        exact ih _ (graphInv_depGraphStep g0 m h)
  apply this
  constructor
  · simp [keys]
  · intro x; simp [adj, List.lookup]

/-- When every declared dependency id is an input id, the graph is
edge-closed over its keys. -/
theorem wf_depGraph (mods : List Mod)
    (hdeps : ∀ m ∈ mods, ∀ d ∈ m.dependencies, d.mod_id ∈ mods.map (·.id)) :
    WFGraph (depGraph mods) := by
  intro x y hy
  rw [mem_adj_depGraph] at hy
  obtain ⟨m, hm, _, d, hd, hw⟩ := hy
  rw [mem_keys_depGraph]
  exact hw ▸ hdeps m hm d hd

/-- Under the same hypothesis `_build_dependency_graph` succeeds and
returns exactly the total graph. -/
theorem build_eq_ok (mods : List Mod)
    (hdeps : ∀ m ∈ mods, ∀ d ∈ m.dependencies, d.mod_id ∈ mods.map (·.id)) :
    buildDependencyGraph mods = .ok (depGraph mods) := by
  unfold buildDependencyGraph depGraph
  have hadd : ∀ (m : Mod) (ds : List ModDependency) (g : Graph),
      (∀ d ∈ ds, d.mod_id ∈ mods.map (·.id)) →
      addModEdges (mods.map (·.id)) m g ds =
        .ok (ds.foldl (fun g' dep => graphAddEdge g' m.id dep.mod_id) g) := by
    intro m ds
    induction ds with
    | nil => intro g _; rfl
    | cons d rest ih =>
        intro g h
        rw [addModEdges]
        rw [if_pos (h d (List.mem_cons_self d rest))]
        rw [List.foldl_cons]
        exact ih _ (fun d' hd' => h d' (List.mem_cons_of_mem d hd'))
  have main : ∀ (ms : List Mod) (g0 : Graph),
      (∀ m ∈ ms, ∀ d ∈ m.dependencies, d.mod_id ∈ mods.map (·.id)) →
      (ms.foldlM (fun g m =>
          addModEdges (mods.map (·.id)) m (graphAddNode g m.id) m.dependencies) g0 :
        Except ResolveError Graph) =
        .ok (ms.foldl depGraphStep g0) := by
    intro ms
    induction ms with
    | nil => intro g0 _; rfl
    | cons m rest ih =>
        intro g0 h
        rw [List.foldlM_cons, hadd m m.dependencies (graphAddNode g0 m.id)
          (fun d hd => h m (List.mem_cons_self m rest) d hd)]
        simp only [bind, Except.bind]
        rw [List.foldl_cons]
        exact ih _ (fun m' hm' d hd => h m' (List.mem_cons_of_mem m hm') d hd)
  exact main mods [] hdeps

/-! ## Resolver: DFS unfolding lemmas -/

theorem dfsFold_nil (g : Graph) (fuel : Nat) (path : List String) (c : Colors) :
    dfsFold g fuel [] path c = .ok c := rfl

theorem dfsFold_err_stable (g : Graph) (fuel : Nat) (path : List String) :
    ∀ (nodes : List String) (r : DfsRes), (∀ c, r ≠ .ok c) →
      nodes.foldl
        (fun (acc : DfsRes) n =>
          match acc with
          | .ok c' => dfsVisit g fuel n path c'
          | r => r) r = r := by
  intro nodes
  induction nodes with
  | nil => intro r _; rfl
  | cons n rest ih =>
      intro r hr
      rw [List.foldl_cons]
      cases r with
      | ok c => exact absurd rfl (hr c)
      | cyc ch => exact ih (.cyc ch) (by intro c h; cases h)
      | fuelOut => exact ih .fuelOut (by intro c h; cases h)

theorem dfsFold_cons (g : Graph) (fuel : Nat) (n : String) (rest : List String)
    (path : List String) (c : Colors) :
    dfsFold g fuel (n :: rest) path c =
      match dfsVisit g fuel n path c with
      | .ok c' => dfsFold g fuel rest path c'
      | .cyc ch => .cyc ch
      | .fuelOut => .fuelOut := by
  unfold dfsFold
  rw [List.foldl_cons]
  change List.foldl _ (dfsVisit g fuel n path c) rest = _
  cases dfsVisit g fuel n path c with
  | ok c1 => rfl
  | cyc ch =>
      exact dfsFold_err_stable g fuel path rest (.cyc ch) (fun c0 h0 => by cases h0)
  | fuelOut =>
      exact dfsFold_err_stable g fuel path rest .fuelOut (fun c0 h0 => by cases h0)

theorem dfsVisit_gray (g : Graph) (fuel : Nat) (node : String) (path : List String)
    (c : Colors) (h : colorOf c node = 1) :
    dfsVisit g fuel node path c = .cyc (path.drop (path.indexOf node) ++ [node]) := by
  rw [dfsVisit.eq_def, if_pos h]

theorem dfsVisit_black (g : Graph) (fuel : Nat) (node : String) (path : List String)
    (c : Colors) (h : colorOf c node = 2) :
    dfsVisit g fuel node path c = .ok c := by
  rw [dfsVisit.eq_def, if_neg (by rw [h]; omega), if_pos h]

theorem dfsVisit_white_zero (g : Graph) (node : String) (path : List String)
    (c : Colors) (h1 : colorOf c node ≠ 1) (h2 : colorOf c node ≠ 2) :
    dfsVisit g 0 node path c = .fuelOut := by
  rw [dfsVisit.eq_def, if_neg h1, if_neg h2]

theorem dfsVisit_white_succ (g : Graph) (f : Nat) (node : String) (path : List String)
    (c : Colors) (h1 : colorOf c node ≠ 1) (h2 : colorOf c node ≠ 2) :
    dfsVisit g (f + 1) node path c =
      match dfsFold g f (adj g node) (path ++ [node]) (paint node 1 c) with
      | .ok c' => .ok (paint node 2 c')
      | .cyc ch => .cyc ch
      | .fuelOut => .fuelOut := by
  rw [dfsVisit.eq_def, if_neg h1, if_neg h2]
  change (match dfsFold g f (adj g node) (path ++ [node]) (paint node 1 c) with
      | .ok c' => DfsRes.ok (paint node 2 c')
      | r => r) = _
  cases dfsFold g f (adj g node) (path ++ [node]) (paint node 1 c) with
  | ok c' => rfl
  | cyc ch => rfl
  | fuelOut => rfl

/-! ## Resolver: DFS success invariants -/

theorem OkInv_refl (g : Graph) (c : Colors) : OkInv g c c :=
  ⟨fun _ h => h, fun _ => Iff.rfl, Nat.le_refl _, fun _ => Or.inl rfl⟩

theorem OkInv_trans {g : Graph} {c1 c2 c3 : Colors} (h1 : OkInv g c1 c2)
    (h2 : OkInv g c2 c3) : OkInv g c1 c3 := by
  obtain ⟨m1, g1, w1, r1⟩ := h1
  obtain ⟨m2, g2, w2, r2⟩ := h2
  refine ⟨fun x hx => m2 x (m1 x hx), fun x => (g2 x).trans (g1 x),
    Nat.le_trans w2 w1, fun x => ?_⟩
  rcases r2 x with h | h | h
  · rw [h]; exact r1 x
  · exact Or.inr (Or.inl h)
  · exact Or.inr (Or.inr h)

theorem dfsFold_ok_inv_of_visit (g : Graph) (fuel : Nat)
    (hv : ∀ node path c c', dfsVisit g fuel node path c = .ok c' →
      OkInv g c c' ∧ colorOf c' node = 2) :
    ∀ (nodes : List String) (path : List String) (c c' : Colors),
      dfsFold g fuel nodes path c = .ok c' →
      OkInv g c c' ∧ ∀ n ∈ nodes, colorOf c' n = 2 := by
  intro nodes
  induction nodes with
  | nil =>
      intro path c c' hres
      rw [dfsFold_nil] at hres
      cases hres
      exact ⟨OkInv_refl g c, by intro n hn; simp at hn⟩
  | cons n rest ih =>
      intro path c c' hres
      rw [dfsFold_cons] at hres
      cases hviz : dfsVisit g fuel n path c with
      | ok c1 =>
          rw [hviz] at hres
          obtain ⟨i1, hb1⟩ := hv n path c c1 hviz
          obtain ⟨i2, hball⟩ := ih path c1 c' hres
          refine ⟨OkInv_trans i1 i2, ?_⟩
          intro n' hn'
          rcases List.mem_cons.mp hn' with h | h
          · exact h ▸ i2.1 n hb1
          · exact hball n' h
      | cyc ch => rw [hviz] at hres; cases hres
      | fuelOut => rw [hviz] at hres; cases hres

theorem dfs_visit_ok_inv (g : Graph) :
    ∀ (fuel : Nat) (node : String) (path : List String) (c c' : Colors),
      dfsVisit g fuel node path c = .ok c' →
      OkInv g c c' ∧ colorOf c' node = 2 := by
  intro fuel
  induction fuel with
  | zero =>
      intro node path c c' hres
      by_cases h1 : colorOf c node = 1
      · rw [dfsVisit_gray g 0 node path c h1] at hres; cases hres
      · by_cases h2 : colorOf c node = 2
        · rw [dfsVisit_black g 0 node path c h2] at hres
          cases hres
          exact ⟨OkInv_refl g c, h2⟩
        · rw [dfsVisit_white_zero g node path c h1 h2] at hres; cases hres
  | succ f ihf =>
      intro node path c c' hres
      by_cases h1 : colorOf c node = 1
      · rw [dfsVisit_gray g (f + 1) node path c h1] at hres; cases hres
      · by_cases h2 : colorOf c node = 2
        · rw [dfsVisit_black g (f + 1) node path c h2] at hres
          cases hres
          exact ⟨OkInv_refl g c, h2⟩
        · rw [dfsVisit_white_succ g f node path c h1 h2] at hres
          cases hfold : dfsFold g f (adj g node) (path ++ [node]) (paint node 1 c) with
          | ok c2 =>
              rw [hfold] at hres
              cases hres
              obtain ⟨i, hall⟩ := dfsFold_ok_inv_of_visit g f ihf _ _ _ _ hfold
              obtain ⟨imono, igray, iwhite, irange⟩ := i
              constructor
              · refine ⟨?_, ?_, ?_, ?_⟩
                · intro x hx
                  have hxne : x ≠ node := by
                    intro he
                    rw [he] at hx
                    exact h2 hx
                  rw [colorOf_paint, if_neg hxne]
                  apply imono
                  rw [colorOf_paint, if_neg hxne]
                  exact hx
                · intro x
                  by_cases hx : x = node
                  · subst hx
                    rw [colorOf_paint, if_pos rfl]
                    constructor
                    · intro hc; cases hc
                    · intro hc; exact absurd hc h1
                  · rw [colorOf_paint, if_neg hx]
                    have := igray x
                    rw [colorOf_paint, if_neg hx] at this
                    exact this
                · calc whites g (paint node 2 c2) ≤ whites g c2 :=
                        whites_paint_le g c2 node 2 (by omega)
                    _ ≤ whites g (paint node 1 c) := iwhite
                    _ ≤ whites g c := whites_paint_le g c node 1 (by omega)
                · intro x
                  by_cases hx : x = node
                  · subst hx
                    rw [colorOf_paint, if_pos rfl]
                    exact Or.inr (Or.inr rfl)
                  · rw [colorOf_paint, if_neg hx]
                    have := irange x
                    rw [colorOf_paint, if_neg hx] at this
                    exact this
              · rw [colorOf_paint, if_pos rfl]
          | cyc ch => rw [hfold] at hres; cases hres
          | fuelOut => rw [hfold] at hres; cases hres

theorem dfs_fold_ok_inv (g : Graph) (fuel : Nat) :
    ∀ (nodes : List String) (path : List String) (c c' : Colors),
      dfsFold g fuel nodes path c = .ok c' →
      OkInv g c c' ∧ ∀ n ∈ nodes, colorOf c' n = 2 :=
  dfsFold_ok_inv_of_visit g fuel (dfs_visit_ok_inv g fuel)

/-! ## Resolver: DFS fuel sufficiency -/

theorem whites_pos (g : Graph) (c : Colors) (node : String) (hk : node ∈ keys g)
    (hw : colorOf c node = 0) : 0 < whites g c := by
  unfold whites
  apply List.length_pos_of_mem (a := node)
  rw [List.mem_filter]
  exact ⟨hk, by rw [decide_eq_true_eq]; exact hw⟩

theorem dfsFold_suff_of_visit (g : Graph) (fuel : Nat)
    (hv : ∀ node path c, node ∈ keys g → (∀ x, colorOf c x ≤ 2) →
      whites g c ≤ fuel → dfsVisit g fuel node path c ≠ .fuelOut) :
    ∀ (nodes : List String) (path : List String) (c : Colors),
      (∀ n ∈ nodes, n ∈ keys g) → (∀ x, colorOf c x ≤ 2) → whites g c ≤ fuel →
      dfsFold g fuel nodes path c ≠ .fuelOut := by
  intro nodes
  induction nodes with
  | nil => intro path c _ _ _ h; rw [dfsFold_nil] at h; cases h
  | cons n rest ih =>
      intro path c hks hcwf hwh h
      rw [dfsFold_cons] at h
      cases hviz : dfsVisit g fuel n path c with
      | ok c1 =>
          rw [hviz] at h
          obtain ⟨⟨_, _, hwle, hrange⟩, _⟩ := dfs_visit_ok_inv g fuel n path c c1 hviz
          refine ih path c1 (fun n' hn' => hks n' (List.mem_cons_of_mem n hn')) ?_
            (Nat.le_trans hwle hwh) h
          intro x
          rcases hrange x with hx | hx | hx
          · rw [hx]; exact hcwf x
          · rw [hx]; omega
          · rw [hx]
      | cyc ch => rw [hviz] at h; cases h
      | fuelOut =>
          exact hv n path c (hks n (List.mem_cons_self n rest)) hcwf hwh hviz

theorem dfs_visit_suff (g : Graph) (hnd : (keys g).Nodup) (hwfg : WFGraph g) :
    ∀ (fuel : Nat) (node : String) (path : List String) (c : Colors),
      node ∈ keys g → (∀ x, colorOf c x ≤ 2) → whites g c ≤ fuel →
      dfsVisit g fuel node path c ≠ .fuelOut := by
  intro fuel
  induction fuel with
  | zero =>
      intro node path c hk hcwf hwh h
      by_cases h1 : colorOf c node = 1
      · rw [dfsVisit_gray g 0 node path c h1] at h; cases h
      · by_cases h2 : colorOf c node = 2
        · rw [dfsVisit_black g 0 node path c h2] at h; cases h
        · have h0 : colorOf c node = 0 := by have := hcwf node; omega
          have := whites_pos g c node hk h0
          omega
  | succ f ih =>
      intro node path c hk hcwf hwh h
      by_cases h1 : colorOf c node = 1
      · rw [dfsVisit_gray g (f + 1) node path c h1] at h; cases h
      · by_cases h2 : colorOf c node = 2
        · rw [dfsVisit_black g (f + 1) node path c h2] at h; cases h
        · have h0 : colorOf c node = 0 := by have := hcwf node; omega
          rw [dfsVisit_white_succ g f node path c h1 h2] at h
          have hwh1 : whites g (paint node 1 c) ≤ f := by
            have := whites_paint_gray g c node hnd hk h0
            omega
          have hcwf1 : ∀ x, colorOf (paint node 1 c) x ≤ 2 := by
            intro x
            rw [colorOf_paint]
            by_cases hx : x = node
            · rw [if_pos hx]; omega
            · rw [if_neg hx]; exact hcwf x
          have hfold := dfsFold_suff_of_visit g f (ih) (adj g node) (path ++ [node])
            (paint node 1 c) (fun n' hn' => hwfg node n' hn') hcwf1 hwh1
          cases hfres : dfsFold g f (adj g node) (path ++ [node]) (paint node 1 c) with
          | ok c2 => rw [hfres] at h; cases h
          | cyc ch => rw [hfres] at h; cases h
          | fuelOut => exact hfold hfres

theorem dfs_fold_suff (g : Graph) (hnd : (keys g).Nodup) (hwfg : WFGraph g)
    (fuel : Nat) :
    ∀ (nodes : List String) (path : List String) (c : Colors),
      (∀ n ∈ nodes, n ∈ keys g) → (∀ x, colorOf c x ≤ 2) → whites g c ≤ fuel →
      dfsFold g fuel nodes path c ≠ .fuelOut :=
  dfsFold_suff_of_visit g fuel (dfs_visit_suff g hnd hwfg fuel)

/-! ## Resolver: the raised chain is a real cycle -/

/-- Hitting a GRAY node on the current DFS path closes a genuine cycle:
`path[path.index(node):] + [node]` has consecutive edges and returns to
its first element. -/
theorem isCycleChain_of_gray_hit (g : Graph) (node : String) (path : List String)
    (hmem : node ∈ path) (hchain : List.Chain' (isEdge g) (path ++ [node])) :
    IsCycleChain g (path.drop (path.indexOf node) ++ [node]) := by
  have hidx : path.indexOf node < path.length := List.indexOf_lt_length.mpr hmem
  have hdropget : path.drop (path.indexOf node) =
      node :: path.drop (path.indexOf node + 1) := by
    rw [List.drop_eq_getElem_cons hidx, List.getElem_indexOf hidx]
  refine ⟨?_, ?_, ?_⟩
  · rw [hdropget]
    simp only [List.cons_append, List.length_cons, List.length_append,
      List.length_singleton]
    omega
  · apply hchain.suffix
    exact ⟨path.take (path.indexOf node), by rw [← List.append_assoc,
      List.take_append_drop]⟩
  · rw [hdropget, List.cons_append]
    simp only [List.head?_cons]
    rw [← List.cons_append, List.getLast?_concat]

theorem dfsFold_sound_of_visit (g : Graph) (fuel : Nat)
    (hv : ∀ node path c ch, (∀ x, colorOf c x = 1 ↔ x ∈ path) →
      List.Chain' (isEdge g) (path ++ [node]) →
      dfsVisit g fuel node path c = .cyc ch → IsCycleChain g ch) :
    ∀ (nodes : List String) (path : List String) (c : Colors) (ch : List String),
      (∀ x, colorOf c x = 1 ↔ x ∈ path) →
      (∀ n ∈ nodes, List.Chain' (isEdge g) (path ++ [n])) →
      dfsFold g fuel nodes path c = .cyc ch → IsCycleChain g ch := by
  intro nodes
  induction nodes with
  | nil => intro path c ch _ _ h; rw [dfsFold_nil] at h; cases h
  | cons n rest ih =>
      intro path c ch hgray hchains h
      rw [dfsFold_cons] at h
      cases hviz : dfsVisit g fuel n path c with
      | ok c1 =>
          rw [hviz] at h
          obtain ⟨⟨_, hgiff, _, _⟩, _⟩ := dfs_visit_ok_inv g fuel n path c c1 hviz
          exact ih path c1 ch (fun x => (hgiff x).trans (hgray x))
            (fun n' hn' => hchains n' (List.mem_cons_of_mem n hn')) h
      | cyc ch' =>
          rw [hviz] at h
          cases h
          exact hv n path c ch hgray (hchains n (List.mem_cons_self n rest)) hviz
      | fuelOut => rw [hviz] at h; cases h

theorem dfs_visit_sound (g : Graph) :
    ∀ (fuel : Nat) (node : String) (path : List String) (c : Colors)
      (ch : List String),
      (∀ x, colorOf c x = 1 ↔ x ∈ path) →
      List.Chain' (isEdge g) (path ++ [node]) →
      dfsVisit g fuel node path c = .cyc ch → IsCycleChain g ch := by
  have gray_case : ∀ (fuel : Nat) (node : String) (path : List String) (c : Colors)
      (ch : List String), (∀ x, colorOf c x = 1 ↔ x ∈ path) →
      List.Chain' (isEdge g) (path ++ [node]) → colorOf c node = 1 →
      dfsVisit g fuel node path c = .cyc ch → IsCycleChain g ch := by
    intro fuel node path c ch hgray hchain h1 h
    rw [dfsVisit_gray g fuel node path c h1] at h
    cases h
    exact isCycleChain_of_gray_hit g node path ((hgray node).mp h1) hchain
  intro fuel
  induction fuel with
  | zero =>
      intro node path c ch hgray hchain h
      by_cases h1 : colorOf c node = 1
      · exact gray_case 0 node path c ch hgray hchain h1 h
      · by_cases h2 : colorOf c node = 2
        · rw [dfsVisit_black g 0 node path c h2] at h; cases h
        · rw [dfsVisit_white_zero g node path c h1 h2] at h; cases h
  | succ f ihf =>
      intro node path c ch hgray hchain h
      by_cases h1 : colorOf c node = 1
      · exact gray_case (f + 1) node path c ch hgray hchain h1 h
      · by_cases h2 : colorOf c node = 2
        · rw [dfsVisit_black g (f + 1) node path c h2] at h; cases h
        · rw [dfsVisit_white_succ g f node path c h1 h2] at h
          cases hfold : dfsFold g f (adj g node) (path ++ [node]) (paint node 1 c) with
          | ok c2 => rw [hfold] at h; cases h
          | fuelOut => rw [hfold] at h; cases h
          | cyc ch' =>
              rw [hfold] at h
              cases h
              refine dfsFold_sound_of_visit g f ihf (adj g node) (path ++ [node])
                (paint node 1 c) ch ?_ ?_ hfold
              · intro x
                rw [colorOf_paint]
                by_cases hx : x = node
                · rw [if_pos hx]
                  simp [hx]
                · rw [if_neg hx]
                  rw [hgray x]
                  simp [hx]
              · intro nb hnb
                rw [List.chain'_append]
                refine ⟨hchain, List.chain'_singleton nb, ?_⟩
                intro x hx y hy
                rw [List.getLast?_append_cons] at hx
                simp only [List.getLast?_singleton, Option.mem_some_iff] at hx
                simp only [List.head?_cons, Option.mem_some_iff] at hy
                rw [← hx, ← hy]
                exact hnb

theorem dfs_fold_sound (g : Graph) (fuel : Nat) :
    ∀ (nodes : List String) (path : List String) (c : Colors) (ch : List String),
      (∀ x, colorOf c x = 1 ↔ x ∈ path) →
      (∀ n ∈ nodes, List.Chain' (isEdge g) (path ++ [n])) →
      dfsFold g fuel nodes path c = .cyc ch → IsCycleChain g ch :=
  dfsFold_sound_of_visit g fuel (dfs_visit_sound g fuel)

/-! ## Resolver: a completed DFS yields a topological order -/

/-- An edge's source is a graph key (non-keys have empty adjacency). -/
theorem edge_source_mem_keys {g : Graph} {u v : String} (h : isEdge g u v) :
    u ∈ keys g := by
  unfold isEdge adj at h
  cases hl : g.lookup u with
  | none => rw [hl] at h; simp at h
  | some l =>
      rw [← lookup_isSome_iff_mem_keys]
      rw [hl]
      rfl

theorem dfsFold_topo_of_visit (g : Graph) (fuel : Nat)
    (hv : ∀ node path c c' L, TopoState g c L →
      dfsVisit g fuel node path c = .ok c' → ∃ post, TopoState g c' (L ++ post)) :
    ∀ (nodes : List String) (path : List String) (c c' : Colors) (L : List String),
      TopoState g c L → dfsFold g fuel nodes path c = .ok c' →
      ∃ post, TopoState g c' (L ++ post) := by
  intro nodes
  induction nodes with
  | nil =>
      intro path c c' L hts h
      rw [dfsFold_nil] at h
      cases h
      exact ⟨[], by rw [List.append_nil]; exact hts⟩
  | cons n rest ih =>
      intro path c c' L hts h
      rw [dfsFold_cons] at h
      cases hviz : dfsVisit g fuel n path c with
      | ok c1 =>
          rw [hviz] at h
          obtain ⟨p1, h1⟩ := hv n path c c1 L hts hviz
          obtain ⟨p2, h2⟩ := ih path c1 c' (L ++ p1) h1 h
          exact ⟨p1 ++ p2, by rw [← List.append_assoc]; exact h2⟩
      | cyc ch => rw [hviz] at h; cases h
      | fuelOut => rw [hviz] at h; cases h

theorem dfs_visit_topo (g : Graph) :
    ∀ (fuel : Nat) (node : String) (path : List String) (c c' : Colors)
      (L : List String),
      TopoState g c L → dfsVisit g fuel node path c = .ok c' →
      ∃ post, TopoState g c' (L ++ post) := by
  have black_case : ∀ (fuel : Nat) (node : String) (path : List String)
      (c c' : Colors) (L : List String), TopoState g c L →
      colorOf c node = 2 → dfsVisit g fuel node path c = .ok c' →
      ∃ post, TopoState g c' (L ++ post) := by
    intro fuel node path c c' L hts h2 h
    rw [dfsVisit_black g fuel node path c h2] at h
    cases h
    exact ⟨[], by rw [List.append_nil]; exact hts⟩
  intro fuel
  induction fuel with
  | zero =>
      intro node path c c' L hts h
      by_cases h1 : colorOf c node = 1
      · rw [dfsVisit_gray g 0 node path c h1] at h; cases h
      · by_cases h2 : colorOf c node = 2
        · exact black_case 0 node path c c' L hts h2 h
        · rw [dfsVisit_white_zero g node path c h1 h2] at h; cases h
  | succ f ihf =>
      intro node path c c' L hts h
      by_cases h1 : colorOf c node = 1
      · rw [dfsVisit_gray g (f + 1) node path c h1] at h; cases h
      · by_cases h2 : colorOf c node = 2
        · exact black_case (f + 1) node path c c' L hts h2 h
        · rw [dfsVisit_white_succ g f node path c h1 h2] at h
          cases hfold : dfsFold g f (adj g node) (path ++ [node]) (paint node 1 c) with
          | cyc ch => rw [hfold] at h; cases h
          | fuelOut => rw [hfold] at h; cases h
          | ok c2 =>
              rw [hfold] at h
              cases h
              obtain ⟨hnd, hbl, htp⟩ := hts
              have hnode_notL : node ∉ L := by
                intro hmem
                exact h2 ((hbl node).mpr hmem)
              have hts1 : TopoState g (paint node 1 c) L := by
                refine ⟨hnd, ?_, htp⟩
                intro x
                rw [colorOf_paint]
                by_cases hx : x = node
                · rw [if_pos hx]
                  subst hx
                  constructor
                  · intro hc; cases hc
                  · intro hc; exact absurd hc hnode_notL
                · rw [if_neg hx]; exact hbl x
              obtain ⟨post, hts2⟩ := dfsFold_topo_of_visit g f ihf (adj g node)
                (path ++ [node]) (paint node 1 c) c2 L hts1 hfold
              obtain ⟨hnd2, hbl2, htp2⟩ := hts2
              obtain ⟨⟨_, hgiff2, _, _⟩, hallb⟩ :=
                dfs_fold_ok_inv g f (adj g node) (path ++ [node]) (paint node 1 c)
                  c2 hfold
              have hnode_notLp : node ∉ L ++ post := by
                intro hmem
                have h2' : colorOf c2 node = 2 := (hbl2 node).mpr hmem
                have hg : colorOf c2 node = 1 := by
                  rw [hgiff2 node, colorOf_paint, if_pos rfl]
                omega
              refine ⟨post ++ [node], ?_⟩
              rw [← List.append_assoc]
              refine ⟨?_, ?_, ?_⟩
              · refine List.Nodup.append hnd2 (List.nodup_singleton node) ?_
                intro a ha hb
                rw [List.mem_singleton] at hb
                exact hnode_notLp (hb ▸ ha)
              · intro x
                rw [colorOf_paint]
                by_cases hx : x = node
                · rw [if_pos hx]
                  subst hx
                  simp
                · rw [if_neg hx]
                  rw [hbl2 x]
                  simp [hx]
              · intro u hu v hedge
                rcases List.mem_append.mp hu with huL | huN
                · obtain ⟨hvL, hidx⟩ := htp2 u huL v hedge
                  refine ⟨List.mem_append_left _ hvL, ?_⟩
                  rw [List.indexOf_append_of_mem hvL, List.indexOf_append_of_mem huL]
                  exact hidx
                · rw [List.mem_singleton] at huN
                  subst huN
                  have hvblack : colorOf c2 v = 2 := hallb v hedge
                  have hvL : v ∈ L ++ post := (hbl2 v).mp hvblack
                  refine ⟨List.mem_append_left _ hvL, ?_⟩
                  rw [List.indexOf_append_of_mem hvL,
                    List.indexOf_append_of_not_mem hnode_notLp]
                  have : v ∈ L ++ post := hvL
                  have hlt : (L ++ post).indexOf v < (L ++ post).length :=
                    List.indexOf_lt_length.mpr this
                  simp only [List.indexOf_cons_self, Nat.add_zero]
                  omega

theorem dfs_fold_topo (g : Graph) (fuel : Nat) :
    ∀ (nodes : List String) (path : List String) (c c' : Colors) (L : List String),
      TopoState g c L → dfsFold g fuel nodes path c = .ok c' →
      ∃ post, TopoState g c' (L ++ post) :=
  dfsFold_topo_of_visit g fuel (dfs_visit_topo g fuel)

/-- A graph whose keys all appear in a reverse topological list has no
cycle. -/
theorem acyclic_of_topo (g : Graph) (L : List String)
    (htp : ∀ u ∈ L, ∀ v, isEdge g u v → v ∈ L ∧ L.indexOf v < L.indexOf u)
    (hkeys : ∀ k ∈ keys g, k ∈ L) : Acyclic g := by
  intro ch hc
  obtain ⟨hlen, hchain, hhead⟩ := hc
  rw [List.chain'_iff_get] at hchain
  have hmono : ∀ j (hj : j + 1 < ch.length),
      L.indexOf (ch.get ⟨j + 1, hj⟩) < L.indexOf (ch.get ⟨0, by omega⟩) := by
    intro j
    induction j with
    | zero =>
        intro hj
        have hedge := hchain 0 (by omega)
        have hsrc : ch.get ⟨0, by omega⟩ ∈ L :=
          hkeys _ (edge_source_mem_keys hedge)
        exact (htp _ hsrc _ hedge).2
    | succ j ihj =>
        intro hj
        have hj' : j + 1 < ch.length := by omega
        have hedge := hchain (j + 1) (by omega)
        have hsrc : ch.get ⟨j + 1, hj'⟩ ∈ L :=
          hkeys _ (edge_source_mem_keys hedge)
        exact Nat.lt_trans (htp _ hsrc _ hedge).2 (ihj hj')
  have hne : ch ≠ [] := by
    intro h
    rw [h] at hlen
    simp at hlen
  have hfirstlast : ch.get ⟨0, by omega⟩ = ch.get ⟨ch.length - 1, by omega⟩ := by
    have h1 : ch.head? = some (ch.get ⟨0, by omega⟩) := by
      cases ch with
      | nil => exact absurd rfl hne
      | cons a rest => rfl
    have h2 : ch.getLast? = some (ch.get ⟨ch.length - 1, by omega⟩) := by
      rw [List.getLast?_eq_getLast ch hne]
      congr 1
      rw [List.getLast_eq_getElem]
      rfl
    rw [h1, h2] at hhead
    exact Option.some.inj hhead
  have hinst := hmono (ch.length - 2) (by omega)
  have hidx : ch.length - 2 + 1 = ch.length - 1 := by omega
  have hgeteq : ch.get ⟨ch.length - 2 + 1, by omega⟩ =
      ch.get ⟨ch.length - 1, by omega⟩ := by
    congr 1
    exact Fin.ext (by simpa using hidx)
  rw [hgeteq, ← hfirstlast] at hinst
  exact Nat.lt_irrefl _ hinst

/-- A completed cycle check certifies acyclicity. -/
theorem checkCircular_ok_acyclic (g : Graph)
    (h : checkCircularDependencies g = .ok ()) : Acyclic g := by
  unfold checkCircularDependencies at h
  cases hres : dfsFold g (keys g).length (keys g) [] [] with
  | cyc ch => rw [hres] at h; cases h
  | fuelOut => rw [hres] at h; cases h
  | ok cfin =>
      have hts0 : TopoState g [] [] := by
        refine ⟨List.nodup_nil, ?_, ?_⟩
        · intro x
          constructor
          · intro hc; cases hc
          · intro hc; cases hc
        · intro u hu; cases hu
      obtain ⟨post, hnd, hbl, htp⟩ := dfs_fold_topo g (keys g).length (keys g) [] []
        cfin [] hts0 hres
      obtain ⟨_, hallb⟩ := dfs_fold_ok_inv g (keys g).length (keys g) [] [] cfin hres
      rw [List.nil_append] at hnd hbl htp
      exact acyclic_of_topo g post htp (fun k hk => (hbl k).mp (hallb k hk))

/-- With all dependencies present (well-formed, duplicate-free graph),
the cycle check succeeds exactly on acyclic graphs; on a cyclic graph it
raises `CircularDependencyError` carrying a genuine cycle. -/
theorem checkCircular_result (g : Graph) (hnd : (keys g).Nodup) (hwfg : WFGraph g) :
    checkCircularDependencies g = .ok () ∨
      ∃ ch, checkCircularDependencies g = .error (.circular ch) ∧ IsCycleChain g ch := by
  unfold checkCircularDependencies
  cases hres : dfsFold g (keys g).length (keys g) [] [] with
  | ok cfin => exact Or.inl rfl
  | fuelOut =>
      exact absurd hres (dfs_fold_suff g hnd hwfg (keys g).length (keys g) [] []
        (fun n hn => hn) (fun x => by unfold colorOf; simp [List.lookup])
        (by unfold whites; exact Nat.le_of_eq (congrArg List.length
          (List.filter_eq_self.mpr (fun a _ => by
            rw [decide_eq_true_eq]; unfold colorOf; simp [List.lookup])))))
  | cyc ch =>
      refine Or.inr ⟨ch, rfl, ?_⟩
      refine dfs_fold_sound g (keys g).length (keys g) [] [] ch ?_ ?_ hres
      · intro x
        constructor
        · intro hc; unfold colorOf at hc; simp [List.lookup] at hc
        · intro hc; cases hc
      · intro n _
        rw [List.nil_append]
        exact List.chain'_singleton n

/-! ## Resolver: Kahn in-degree map lemmas -/

theorem lookup_map_update (v : String) (n : Int) :
    ∀ (ind : List (String × Int)) (w : String),
      List.lookup w (ind.map (fun q => if q.1 = v then (q.1, n) else q)) =
        if w = v then (ind.lookup v).map (fun _ => n) else ind.lookup w := by
  intro ind
  induction ind with
  | nil => intro w; by_cases hw : w = v <;> simp [List.lookup, hw]
  | cons p rest ih =>
      intro w
      rw [List.map_cons]
      by_cases hp : p.1 = v
      · rw [if_pos hp]
        by_cases hw : w = p.1
        · have hwv : w = v := hw.trans hp
          have hb : (w == p.1) = true := beq_iff_eq.mpr hw
          have hb2 : (v == p.1) = true := beq_iff_eq.mpr hp.symm
          simp [List.lookup, hb, hb2, hwv]
        · have hwv : w ≠ v := fun he => hw (he.trans hp.symm)
          have hb : (w == p.1) = false := beq_eq_false_iff_ne.mpr hw
          simp [List.lookup, hb, hwv, ih w]
      · rw [if_neg hp]
        have hvp : (v == p.1) = false := beq_eq_false_iff_ne.mpr (fun he => hp he.symm)
        by_cases hw : w = p.1
        · have hwv : w ≠ v := fun he => hp (hw ▸ he)
          have hb : (w == p.1) = true := beq_iff_eq.mpr hw
          simp [List.lookup, hb, hwv]
        · have hb : (w == p.1) = false := beq_eq_false_iff_ne.mpr hw
          by_cases hwv : w = v
          · simp [List.lookup, hb, hwv, ih v, hvp]
          · simp [List.lookup, hb, hwv, ih w]

theorem ideg_idegSet (ind : List (String × Int)) (v : String) (n : Int) (w : String) :
    ideg (idegSet ind v n) w = if w = v then n else ideg ind w := by
  unfold idegSet ideg
  by_cases hs : (ind.lookup v).isSome
  · rw [if_pos hs]
    rw [lookup_map_update]
    by_cases hw : w = v
    · rw [if_pos hw, if_pos hw]
      obtain ⟨x, hx⟩ := Option.isSome_iff_exists.mp hs
      rw [hx]
      rfl
    · rw [if_neg hw, if_neg hw]
  · rw [if_neg hs]
    rw [lookup_append]
    by_cases hw : w = v
    · subst hw
      rw [Option.not_isSome_iff_eq_none.mp hs]
      simp [List.lookup]
    · cases hl : ind.lookup w with
      | some x => simp [if_neg hw]
      | none =>
          rw [if_neg hw]
          simp only [Option.or]
          rw [List.lookup]
          rw [beq_eq_false_iff_ne.mpr hw]
          simp [List.lookup]

theorem keys_idegSet_present (ind : List (String × Int)) (v : String) (n : Int)
    (hv : v ∈ ind.map Prod.fst) :
    (idegSet ind v n).map Prod.fst = ind.map Prod.fst := by
  unfold idegSet
  rw [if_pos (by
    cases hl : ind.lookup v with
    | some x => rfl
    | none => exact absurd hv (lookup_none_iff.mp hl))]
  rw [List.map_map]
  apply List.map_congr_left
  intro p _
  by_cases hp : p.1 = v <;> simp [hp]

/-- A pair of a duplicate-free association list is found by lookup. -/
theorem adj_of_mem_nodupkeys {g : Graph} (hnd : (keys g).Nodup)
    {p : String × List String} (hp : p ∈ g) : adj g p.1 = p.2 := by
  unfold adj
  have : g.lookup p.1 = some p.2 :=
    lookup_of_mem_nodupkeys (by exact hnd) (by exact hp)
  rw [this]
  rfl

theorem indegBase_keys :
    ∀ (ks : List String) (ind : List (String × Int)), ks.Nodup →
      (∀ u ∈ ks, u ∉ ind.map Prod.fst) →
      ((ks.foldl (fun i u => idegSet i u 0) ind).map Prod.fst) =
        ind.map Prod.fst ++ ks := by
  intro ks
  induction ks with
  | nil => intro ind _ _; simp
  | cons u rest ih =>
      intro ind hnd hmem
      rw [List.foldl_cons]
      have hu : u ∉ ind.map Prod.fst := hmem u (List.mem_cons_self u rest)
      have hset : idegSet ind u 0 = ind ++ [(u, 0)] := by
        unfold idegSet
        rw [if_neg]
        intro hs
        rw [lookup_none_iff.mpr hu] at hs
        simp at hs
      rw [hset]
      rw [List.nodup_cons] at hnd
      rw [ih (ind ++ [(u, 0)]) hnd.2 ?_]
      · rw [List.map_append]
        simp
      · intro u' hu'
        rw [List.map_append]
        simp only [List.map_cons, List.map_nil, List.mem_append, List.mem_singleton]
        rintro (h | h)
        · exact hmem u' (List.mem_cons_of_mem _ hu') h
        · exact hnd.1 (h ▸ hu')

theorem indegBase_values :
    ∀ (ks : List String) (ind : List (String × Int)) (w : String),
      ideg (ks.foldl (fun i u => idegSet i u 0) ind) w =
        if w ∈ ks then 0 else ideg ind w := by
  intro ks
  induction ks with
  | nil => intro ind w; simp
  | cons u rest ih =>
      intro ind w
      rw [List.foldl_cons, ih]
      by_cases hw : w ∈ rest
      · rw [if_pos hw, if_pos (List.mem_cons_of_mem u hw)]
      · rw [if_neg hw, ideg_idegSet]
        by_cases hwu : w = u
        · rw [if_pos hwu, if_pos (by rw [hwu]; exact List.mem_cons_self u rest)]
        · rw [if_neg hwu, if_neg (by
            intro hc
            rcases List.mem_cons.mp hc with h | h
            · exact hwu h
            · exact hw h)]

theorem indegBump_values :
    ∀ (ds : List String) (ind : List (String × Int)) (w : String), ds.Nodup →
      ideg (ds.foldl (fun i u => idegSet i u (ideg i u + 1)) ind) w =
        ideg ind w + (if w ∈ ds then 1 else 0) := by
  intro ds
  induction ds with
  | nil => intro ind w _; simp
  | cons d rest ih =>
      intro ind w hnd
      rw [List.nodup_cons] at hnd
      rw [List.foldl_cons, ih _ _ hnd.2, ideg_idegSet]
      by_cases hwd : w = d
      · subst hwd
        rw [if_pos rfl, if_neg hnd.1, if_pos (List.mem_cons_self w rest)]
        omega
      · rw [if_neg hwd]
        by_cases hwr : w ∈ rest
        · rw [if_pos hwr, if_pos (List.mem_cons_of_mem d hwr)]
        · rw [if_neg hwr, if_neg (by
            intro hc
            rcases List.mem_cons.mp hc with h | h
            · exact hwd h
            · exact hwr h)]

theorem indegBump_keys :
    ∀ (ds : List String) (ind : List (String × Int)),
      (∀ u ∈ ds, u ∈ ind.map Prod.fst) →
      ((ds.foldl (fun i u => idegSet i u (ideg i u + 1)) ind).map Prod.fst) =
        ind.map Prod.fst := by
  intro ds
  induction ds with
  | nil => intro ind _; rfl
  | cons d rest ih =>
      intro ind hmem
      rw [List.foldl_cons]
      have hk := keys_idegSet_present ind d (ideg ind d + 1)
        (hmem d (List.mem_cons_self d rest))
      rw [ih _ (fun u hu => by rw [hk]; exact hmem u (List.mem_cons_of_mem d hu)), hk]

theorem indegOuter_values :
    ∀ (entries : List (String × List String)) (ind : List (String × Int)) (w : String),
      (∀ p ∈ entries, p.2.Nodup) →
      ideg (entries.foldl
          (fun i p => p.2.foldl (fun i' u => idegSet i' u (ideg i' u + 1)) i) ind) w =
        ideg ind w + ((entries.filter (fun p => decide (w ∈ p.2))).length : Int) := by
  intro entries
  induction entries with
  | nil => intro ind w _; simp
  | cons p rest ih =>
      intro ind w hnd
      rw [List.foldl_cons, ih _ _ (fun q hq => hnd q (List.mem_cons_of_mem p hq)),
        indegBump_values p.2 ind w (hnd p (List.mem_cons_self p rest))]
      rw [List.filter_cons]
      by_cases hw : w ∈ p.2
      · simp only [hw, decide_True, if_true, List.length_cons]
        push_cast
        omega
      · simp only [hw, decide_False, Bool.false_eq_true, if_false]
        omega

theorem indegOuter_keys :
    ∀ (entries : List (String × List String)) (ind : List (String × Int)),
      (∀ p ∈ entries, ∀ u ∈ p.2, u ∈ ind.map Prod.fst) →
      ((entries.foldl
          (fun i p => p.2.foldl (fun i' u => idegSet i' u (ideg i' u + 1)) i) ind).map
        Prod.fst) = ind.map Prod.fst := by
  intro entries
  induction entries with
  | nil => intro ind _; rfl
  | cons p rest ih =>
      intro ind hmem
      rw [List.foldl_cons]
      have hk := indegBump_keys p.2 ind (hmem p (List.mem_cons_self p rest))
      rw [ih _ (fun q hq u hu => by
        rw [hk]; exact hmem q (List.mem_cons_of_mem p hq) u hu), hk]

/-- The key list of the initial in-degree map is the graph's key list. -/
theorem initIndeg_keys (g : Graph) (hnd : (keys g).Nodup) (hwfg : WFGraph g) :
    (initIndeg g).map Prod.fst = keys g := by
  unfold initIndeg
  have hbase := indegBase_keys (keys g) [] hnd (by intro u _ h; simp at h)
  rw [indegOuter_keys g _ ?_, hbase]
  · simp
  · intro p hp u hu
    rw [hbase]
    simp only [List.map_nil, List.nil_append]
    exact hwfg p.1 u (by rw [adj_of_mem_nodupkeys hnd hp]; exact hu)

/-- The initial in-degrees equal the predecessor counts of the graph. -/
theorem initIndeg_values (g : Graph) (hgi : GraphInv g) (v : String) :
    ideg (initIndeg g) v = (predCount g [] v : Int) := by
  obtain ⟨hnd, hadj⟩ := hgi
  unfold initIndeg
  rw [indegOuter_values g _ v (fun p hp => by
    rw [← adj_of_mem_nodupkeys hnd hp]; exact hadj p.1)]
  rw [indegBase_values (keys g) [] v]
  have hbase0 : (if v ∈ keys g then (0 : Int) else ideg [] v) = 0 := by
    by_cases hv : v ∈ keys g
    · rw [if_pos hv]
    · rw [if_neg hv]; rfl
  rw [hbase0]
  unfold predCount
  have hfilter : (keys g).filter (fun u => decide (u ∉ ([] : List String) ∧ v ∈ adj g u)) =
      (keys g).filter (fun u => decide (v ∈ adj g u)) := by
    apply List.filter_congr
    intro u _
    simp
  rw [hfilter]
  unfold keys
  rw [List.filter_map]
  rw [List.length_map]
  have hcongr : g.filter ((fun u => decide (v ∈ adj g u)) ∘ Prod.fst) =
      g.filter (fun p => decide (v ∈ p.2)) := by
    apply List.filter_congr
    intro p hp
    simp only [Function.comp]
    rw [adj_of_mem_nodupkeys hnd hp]
  rw [hcongr]
  omega

/-! ## Resolver: Kahn neighbour pass -/

theorem idegWeight_eq_sum (ind : List (String × Int)) (ks : List String)
    (hk : ind.map Prod.fst = ks) (hnd : ks.Nodup) :
    idegWeight ind = (ks.map (fun v => (ideg ind v).toNat)).sum := by
  unfold idegWeight
  rw [← hk, List.map_map]
  congr 1
  apply List.map_congr_left
  intro p hp
  have : ind.lookup p.1 = some p.2 := by
    apply lookup_of_mem_nodupkeys (by rw [hk]; exact hnd)
    exact hp
  simp only [Function.comp_apply, ideg, this, Option.getD_some]

theorem kahnNeighbors_spec :
    ∀ (ns : List String) (ind : List (String × Int)) (queue : List String),
      ns.Nodup → (∀ v ∈ ns, v ∈ ind.map Prod.fst) →
      ((kahnNeighbors ind queue ns).1.map Prod.fst = ind.map Prod.fst) ∧
      (∀ w, ideg (kahnNeighbors ind queue ns).1 w =
        ideg ind w - (if w ∈ ns then 1 else 0)) ∧
      (kahnNeighbors ind queue ns).2 =
        queue ++ ns.filter (fun v => decide (ideg ind v = 1)) := by
  intro ns
  induction ns with
  | nil =>
      intro ind queue _ _
      refine ⟨rfl, ?_, by simp [kahnNeighbors]⟩
      intro w
      simp [kahnNeighbors]
  | cons v rest ih =>
      intro ind queue hnd hmem
      rw [List.nodup_cons] at hnd
      rw [kahnNeighbors]
      have hkeys := keys_idegSet_present ind v (ideg ind v - 1)
        (hmem v (List.mem_cons_self v rest))
      have hval : ∀ w, ideg (idegSet ind v (ideg ind v - 1)) w =
          if w = v then ideg ind v - 1 else ideg ind w := fun w => ideg_idegSet ind v _ w
      obtain ⟨ihk, ihv, ihq⟩ := ih (idegSet ind v (ideg ind v - 1))
        (if ideg (idegSet ind v (ideg ind v - 1)) v = 0 then queue ++ [v] else queue)
        hnd.2 (fun v' hv' => by rw [hkeys]; exact hmem v' (List.mem_cons_of_mem v hv'))
      refine ⟨by rw [ihk, hkeys], ?_, ?_⟩
      · intro w
        rw [ihv w, hval w]
        by_cases hwv : w = v
        · rw [if_pos hwv, if_neg (by rw [hwv]; exact hnd.1),
            if_pos (by rw [hwv]; exact List.mem_cons_self v rest), hwv]
          omega
        · rw [if_neg hwv]
          by_cases hwr : w ∈ rest
          · rw [if_pos hwr, if_pos (List.mem_cons_of_mem v hwr)]
          · rw [if_neg hwr, if_neg (by
              intro hc
              rcases List.mem_cons.mp hc with h | h
              · exact hwv h
              · exact hwr h)]
      · rw [ihq]
        have hcond : (ideg (idegSet ind v (ideg ind v - 1)) v = 0) ↔ ideg ind v = 1 := by
          rw [hval v, if_pos rfl]
          omega
        have hfilt : rest.filter
            (fun v' => decide (ideg (idegSet ind v (ideg ind v - 1)) v' = 1)) =
            rest.filter (fun v' => decide (ideg ind v' = 1)) := by
          apply List.filter_congr
          intro v' hv'
          rw [hval v', if_neg (by intro he; exact hnd.1 (he ▸ hv'))]
        rw [hfilt, List.filter_cons]
        by_cases hc : ideg ind v = 1
        · rw [if_pos (hcond.mpr hc), if_pos (by simp [hc])]
          simp [List.append_assoc]
        · rw [if_neg (fun hc0 => hc (hcond.mp hc0)), if_neg (by simp [hc])]

/-! ## Resolver: predecessor counting -/

theorem filter_length_as_sum {α : Type} (l : List α) (Q : α → Bool) :
    (l.filter Q).length = (l.map (fun v => if Q v then 1 else 0)).sum := by
  induction l with
  | nil => rfl
  | cons a l ih =>
      rw [List.filter_cons, List.map_cons, List.sum_cons, ← ih]
      by_cases h : Q a
      · rw [if_pos h, if_pos h, List.length_cons]
        omega
      · rw [if_neg h, if_neg h]
        omega

theorem filter_length_drop {α : Type} [DecidableEq α] (node : α) (p q : α → Bool)
    (hne : ∀ a, a ≠ node → q a = p a) (hnode : q node = false) :
    ∀ (l : List α), l.Nodup →
      (l.filter q).length + (if node ∈ l ∧ p node = true then 1 else 0) =
        (l.filter p).length := by
  intro l
  induction l with
  | nil => intro _; simp
  | cons a l ih =>
      intro hnd
      rw [List.nodup_cons] at hnd
      have hrec := ih hnd.2
      rw [List.filter_cons, List.filter_cons]
      by_cases ha : a = node
      · subst ha
        rw [if_neg (by rw [hnode]; simp)]
        have hfc : l.filter q = l.filter p := by
          apply List.filter_congr
          intro x hx
          exact hne x (fun he => hnd.1 (he ▸ hx))
        rw [hfc]
        by_cases hp : p a = true
        · rw [if_pos hp, if_pos ⟨List.mem_cons_self a l, hp⟩, List.length_cons]
        · rw [if_neg hp, if_neg (by intro hc; exact hp hc.2)]
          omega
      · have hqa : q a = p a := hne a ha
        have hmem : (node ∈ a :: l ∧ p node = true) ↔ (node ∈ l ∧ p node = true) := by
          constructor
          · rintro ⟨h1, h2⟩
            rcases List.mem_cons.mp h1 with h | h
            · exact absurd h.symm ha
            · exact ⟨h, h2⟩
          · rintro ⟨h1, h2⟩
            exact ⟨List.mem_cons_of_mem a h1, h2⟩
        rw [if_congr hmem rfl rfl]
        by_cases hp : p a = true
        · rw [if_pos hp, if_pos (hqa ▸ hp), List.length_cons, List.length_cons]
          omega
        · rw [if_neg hp, if_neg (by rw [hqa]; exact hp)]
          exact hrec

theorem predCount_append_node (g : Graph) (sorted : List String) (node : String)
    (hnd : (keys g).Nodup) (hns : node ∉ sorted) (w : String) :
    predCount g (sorted ++ [node]) w +
      (if node ∈ keys g ∧ w ∈ adj g node then 1 else 0) = predCount g sorted w := by
  unfold predCount
  have h := filter_length_drop node
    (fun u => decide (u ∉ sorted ∧ w ∈ adj g u))
    (fun u => decide (u ∉ sorted ++ [node] ∧ w ∈ adj g u))
    (by
      intro a ha
      simp only [decide_eq_decide]
      constructor
      · rintro ⟨h1, h2⟩
        exact ⟨fun hc => h1 (List.mem_append_left _ hc), h2⟩
      · rintro ⟨h1, h2⟩
        refine ⟨?_, h2⟩
        intro hc
        rcases List.mem_append.mp hc with h | h
        · exact h1 h
        · exact ha (List.mem_singleton.mp h))
    (by
      simp only [decide_eq_false_iff_not, not_and, not_not]
      intro h
      exact absurd (List.mem_append_right sorted (List.mem_singleton.mpr rfl)) h)
    (keys g) hnd
  rw [← h]
  congr 1
  apply if_congr _ rfl rfl
  simp only [decide_eq_true_eq]
  constructor
  · rintro ⟨h1, h2⟩
    exact ⟨h1, hns, h2⟩
  · rintro ⟨h1, _, h3⟩
    exact ⟨h1, h3⟩

/-! ## Resolver: Kahn loop invariant -/

theorem indexOf_append_mem {α : Type} [BEq α] [LawfulBEq α] {a : α} :
    ∀ {l₁ : List α} (l₂ : List α), a ∈ l₁ → (l₁ ++ l₂).indexOf a = l₁.indexOf a := by
  intro l₁
  induction l₁ with
  | nil => intro l₂ h; cases h
  | cons b l ih =>
      intro l₂ h
      rw [List.cons_append, List.indexOf_cons, List.indexOf_cons]
      by_cases hb : a = b
      · rw [hb, beq_self_eq_true]
        rfl
      · rw [beq_eq_false_iff_ne.mpr (fun he => hb he.symm)]
        rcases List.mem_cons.mp h with h' | h'
        · exact absurd h' hb
        · rw [cond_false, cond_false, ih l₂ h']

theorem indexOf_append_not_mem {α : Type} [BEq α] [LawfulBEq α] {a : α} :
    ∀ {l₁ : List α} (l₂ : List α), a ∉ l₁ →
      (l₁ ++ l₂).indexOf a = l₁.length + l₂.indexOf a := by
  intro l₁
  induction l₁ with
  | nil => intro l₂ _; simp
  | cons b l ih =>
      intro l₂ h
      rw [List.cons_append, List.indexOf_cons]
      have hb : a ≠ b := fun he => h (he ▸ List.mem_cons_self b l)
      rw [beq_eq_false_iff_ne.mpr (fun he => hb he.symm), cond_false,
        ih l₂ (fun hc => h (List.mem_cons_of_mem b hc)), List.length_cons]
      omega

theorem sum_map_add {α : Type} (l : List α) (f g : α → Nat) :
    (l.map (fun v => f v + g v)).sum = (l.map f).sum + (l.map g).sum := by
  induction l with
  | nil => rfl
  | cons a l ih =>
      simp only [List.map_cons, List.sum_cons, ih]
      omega

/-- One iteration of the Kahn work loop re-establishes the loop invariant
on the popped node's successor state, and strictly decreases the
in-degree-weight-plus-queue-length potential. -/
theorem kahnInv_step (g : Graph) (hgi : GraphInv g) (hwfg : WFGraph g)
    (ind : List (String × Int)) (node : String) (rest sorted : List String)
    (ind' : List (String × Int)) (queue' : List String)
    (hind : ind' = (kahnNeighbors ind rest (adj g node)).1)
    (hque : queue' = (kahnNeighbors ind rest (adj g node)).2)
    (hinv : KahnInv g ind (node :: rest) sorted) :
    KahnInv g ind' queue' (sorted ++ [node]) ∧
    idegWeight ind' + queue'.length + 1 ≤ idegWeight ind + (node :: rest).length := by
  obtain ⟨i0, i1, i3a, i3b, i2, i3, i4⟩ := hinv
  have hgnd : (keys g).Nodup := hgi.1
  have hnsnd : (adj g node).Nodup := hgi.2 node
  have hnsk : ∀ v ∈ adj g node, v ∈ keys g := fun v hv => hwfg node v hv
  obtain ⟨hk', hv', hq'⟩ := kahnNeighbors_spec (adj g node) ind rest hnsnd
    (fun v hv => by rw [i0]; exact hnsk v hv)
  have hk2 : ind'.map Prod.fst = ind.map Prod.fst := by rw [hind]; exact hk'
  have hv2 : ∀ w, ideg ind' w = ideg ind w - (if w ∈ adj g node then 1 else 0) :=
    fun w => by rw [hind]; exact hv' w
  have hq2 : queue' = rest ++ (adj g node).filter (fun v => decide (ideg ind v = 1)) := by
    rw [hque, hq']
  have hnodek : node ∈ keys g := i3b node (List.mem_cons_self node rest)
  rw [List.nodup_append] at i1
  obtain ⟨hsnd, hqnd, hdisj⟩ := i1
  have hnode_sorted : node ∉ sorted := fun hc => hdisj hc (List.mem_cons_self node rest)
  have hpred : ∀ w, predCount g (sorted ++ [node]) w +
      (if w ∈ adj g node then 1 else 0) = predCount g sorted w := by
    intro w
    have h := predCount_append_node g sorted node hgnd hnode_sorted w
    have hiff : (node ∈ keys g ∧ w ∈ adj g node) ↔ (w ∈ adj g node) :=
      ⟨And.right, fun h2 => ⟨hnodek, h2⟩⟩
    rw [if_congr hiff rfl rfl] at h
    exact h
  have hpc_node : predCount g sorted node = 0 :=
    (i3 node hnodek).mp (Or.inr (List.mem_cons_self node rest))
  have hnew_mem : ∀ w, w ∈ (adj g node).filter (fun v => decide (ideg ind v = 1)) ↔
      (w ∈ adj g node ∧ ideg ind w = 1) := by
    intro w
    rw [List.mem_filter]
    simp only [decide_eq_true_eq]
  have hnew_fresh : ∀ w ∈ (adj g node).filter (fun v => decide (ideg ind v = 1)),
      w ∉ sorted ∧ w ∉ node :: rest := by
    intro w hw
    obtain ⟨hwns, hwdeg⟩ := (hnew_mem w).mp hw
    have hwk : w ∈ keys g := hnsk w hwns
    have hpcw := i2 w hwk
    rw [hwdeg] at hpcw
    have hnot : ¬(w ∈ sorted ∨ w ∈ node :: rest) := by
      intro hc
      have := (i3 w hwk).mp hc
      omega
    exact ⟨fun hc => hnot (Or.inl hc), fun hc => hnot (Or.inr hc)⟩
  refine ⟨⟨?_, ?_, ?_, ?_, ?_, ?_, ?_⟩, ?_⟩
  · rw [hk2, i0]
  · rw [hq2, List.nodup_append]
    refine ⟨?_, ?_, ?_⟩
    · rw [List.nodup_append]
      refine ⟨hsnd, List.nodup_singleton node, ?_⟩
      intro a ha hb
      rw [List.mem_singleton.mp hb] at ha
      exact hnode_sorted ha
    · rw [List.nodup_append]
      refine ⟨(List.nodup_cons.mp hqnd).2, List.Nodup.filter _ hnsnd, ?_⟩
      intro a ha hb
      exact (hnew_fresh a hb).2 (List.mem_cons_of_mem node ha)
    · intro a ha hb
      rcases List.mem_append.mp ha with ha1 | ha2
      · rcases List.mem_append.mp hb with hb1 | hb2
        · exact hdisj ha1 (List.mem_cons_of_mem node hb1)
        · exact (hnew_fresh a hb2).1 ha1
      · rw [List.mem_singleton.mp ha2] at hb
        rcases List.mem_append.mp hb with hb1 | hb2
        · exact (List.nodup_cons.mp hqnd).1 hb1
        · exact (hnew_fresh node hb2).2 (List.mem_cons_self node rest)
  · intro x hx
    rcases List.mem_append.mp hx with h | h
    · exact i3a x h
    · rw [List.mem_singleton.mp h]
      exact hnodek
  · intro x hx
    rw [hq2] at hx
    rcases List.mem_append.mp hx with h | h
    · exact i3b x (List.mem_cons_of_mem node h)
    · exact hnsk x ((hnew_mem x).mp h).1
  · intro v hv
    rw [hv2 v]
    have h1 := i2 v hv
    have h2 := hpred v
    by_cases hvns : v ∈ adj g node
    · rw [if_pos hvns]
      rw [if_pos hvns] at h2
      omega
    · rw [if_neg hvns]
      rw [if_neg hvns] at h2
      omega
  · intro v hv
    have h1 := i2 v hv
    have h2 := hpred v
    have h3 := i3 v hv
    have hmono : predCount g sorted v = 0 → predCount g (sorted ++ [node]) v = 0 := by
      intro h0
      by_cases hvns : v ∈ adj g node
      · rw [if_pos hvns] at h2
        omega
      · rw [if_neg hvns] at h2
        omega
    constructor
    · intro hcase
      rcases hcase with hs | hq
      · rcases List.mem_append.mp hs with hs1 | hs2
        · exact hmono (h3.mp (Or.inl hs1))
        · exact hmono ((List.mem_singleton.mp hs2) ▸ hpc_node)
      · rw [hq2] at hq
        rcases List.mem_append.mp hq with hr | hn
        · exact hmono (h3.mp (Or.inr (List.mem_cons_of_mem node hr)))
        · obtain ⟨hvns, hvdeg⟩ := (hnew_mem v).mp hn
          rw [if_pos hvns] at h2
          omega
    · intro h0
      by_cases hvns : v ∈ adj g node
      · rw [if_pos hvns] at h2
        have hdeg1 : ideg ind v = 1 := by omega
        right
        rw [hq2]
        exact List.mem_append_right rest ((hnew_mem v).mpr ⟨hvns, hdeg1⟩)
      · rw [if_neg hvns] at h2
        have hpc0 : predCount g sorted v = 0 := by omega
        rcases h3.mpr hpc0 with hs | hq
        · exact Or.inl (List.mem_append_left _ hs)
        · rcases List.mem_cons.mp hq with hvn | hr
          · exact Or.inl (List.mem_append_right _ (List.mem_singleton.mpr hvn))
          · right
            rw [hq2]
            exact List.mem_append_left _ hr
  · intro v hv u hedge
    have humem : u ∈ keys g := edge_source_mem_keys hedge
    rcases List.mem_append.mp hv with hvs | hvn
    · obtain ⟨hus, hidx⟩ := i4 v hvs u hedge
      refine ⟨List.mem_append_left _ hus, ?_⟩
      rw [indexOf_append_mem _ hus, indexOf_append_mem _ hvs]
      exact hidx
    · rw [List.mem_singleton.mp hvn] at hedge ⊢
      have hus : u ∈ sorted := by
        by_contra hus
        have hmemf : u ∈ (keys g).filter
            (fun x => decide (x ∉ sorted ∧ node ∈ adj g x)) := by
          rw [List.mem_filter]
          refine ⟨humem, ?_⟩
          simp only [decide_eq_true_eq]
          exact ⟨hus, hedge⟩
        have hlen : 0 < predCount g sorted node := by
          unfold predCount
          exact List.length_pos.mpr (List.ne_nil_of_mem hmemf)
        omega
      refine ⟨List.mem_append_left _ hus, ?_⟩
      rw [indexOf_append_mem _ hus, indexOf_append_not_mem _ hnode_sorted,
        List.indexOf_cons_self]
      have := List.indexOf_lt_length.mpr hus
      omega
  · rw [hq2, List.length_append, List.length_cons]
    have w1 : idegWeight ind' = ((keys g).map (fun v => (ideg ind' v).toNat)).sum :=
      idegWeight_eq_sum _ (keys g) (by rw [hk2, i0]) hgnd
    have w2 : idegWeight ind = ((keys g).map (fun v => (ideg ind v).toNat)).sum :=
      idegWeight_eq_sum _ (keys g) i0 hgnd
    have w3 : ((adj g node).filter (fun v => decide (ideg ind v = 1))).length ≤
        ((keys g).filter (fun v => decide (v ∈ adj g node ∧ ideg ind v = 1))).length := by
      apply List.Subperm.length_le
      apply List.Nodup.subperm (List.Nodup.filter _ hnsnd)
      intro w hw
      obtain ⟨hwns, hwdeg⟩ := (hnew_mem w).mp hw
      rw [List.mem_filter]
      refine ⟨hnsk w hwns, ?_⟩
      simp only [decide_eq_true_eq]
      exact ⟨hwns, hwdeg⟩
    have w4 := filter_length_as_sum (keys g)
      (fun v => decide (v ∈ adj g node ∧ ideg ind v = 1))
    have w5 : ∀ v ∈ keys g,
        (ideg ind' v).toNat +
          (if (decide (v ∈ adj g node ∧ ideg ind v = 1) : Bool) then 1 else 0) ≤
          (ideg ind v).toNat := by
      intro v hv
      rw [hv2 v]
      by_cases hq : v ∈ adj g node ∧ ideg ind v = 1
      · obtain ⟨hq1, hq2'⟩ := hq
        rw [if_pos (decide_eq_true ⟨hq1, hq2'⟩), if_pos hq1]
        omega
      · have hdec : decide (v ∈ adj g node ∧ ideg ind v = 1) = false :=
          decide_eq_false hq
        rw [hdec, if_neg Bool.false_ne_true]
        by_cases hvns : v ∈ adj g node
        · rw [if_pos hvns]
          omega
        · rw [if_neg hvns]
          omega
    have w6 : ((keys g).map (fun v => (ideg ind' v).toNat)).sum +
        ((keys g).map (fun v =>
          if (decide (v ∈ adj g node ∧ ideg ind v = 1) : Bool) then 1 else 0)).sum ≤
        ((keys g).map (fun v => (ideg ind v).toNat)).sum := by
      rw [← sum_map_add]
      exact List.sum_le_sum w5
    rw [w1, w2] at *
    omega

theorem kahnLoop_nil (g : Graph) (fuel : Nat) (ind : List (String × Int))
    (sorted : List String) : kahnLoop g fuel ind [] sorted = sorted := by
  cases fuel <;> rfl

theorem kahnLoop_cons (g : Graph) (fuel : Nat) (ind : List (String × Int))
    (node : String) (rest sorted : List String) :
    kahnLoop g (fuel + 1) ind (node :: rest) sorted =
      kahnLoop g fuel (kahnNeighbors ind rest (adj g node)).1
        (kahnNeighbors ind rest (adj g node)).2 (sorted ++ [node]) := by
  rw [kahnLoop]

/-- When the queue has drained, the loop invariant yields the four facts
the topological-sort spec needs about the emitted list. -/
theorem kahnLoop_terminal (g : Graph) (ind : List (String × Int)) (sorted : List String)
    (hinv : KahnInv g ind [] sorted) :
    sorted.Nodup ∧ (∀ x ∈ sorted, x ∈ keys g) ∧
    (∀ v ∈ sorted, ∀ u, isEdge g u v →
      u ∈ sorted ∧ sorted.indexOf u < sorted.indexOf v) ∧
    (∀ v ∈ keys g, v ∉ sorted → ∃ u ∈ keys g, u ∉ sorted ∧ isEdge g u v) := by
  obtain ⟨_, i1, i3a, _, _, i3, i4⟩ := hinv
  rw [List.append_nil] at i1
  refine ⟨i1, i3a, i4, ?_⟩
  intro v hv hvs
  have hne : predCount g sorted v ≠ 0 := by
    intro h0
    rcases (i3 v hv).mpr h0 with h | h
    · exact hvs h
    · cases h
  have hnenil : (keys g).filter (fun u => decide (u ∉ sorted ∧ v ∈ adj g u)) ≠ [] := by
    intro hnil
    apply hne
    unfold predCount
    rw [hnil]
    rfl
  obtain ⟨u, hu⟩ := List.exists_mem_of_ne_nil _ hnenil
  rw [List.mem_filter] at hu
  obtain ⟨huk, hcond⟩ := hu
  rw [decide_eq_true_eq] at hcond
  exact ⟨u, huk, hcond.1, hcond.2⟩

/-- The Kahn work loop, run with sufficient fuel from a state satisfying
the loop invariant, extends the emitted list and ends in a state where
the emitted list is duplicate-free, lies inside the keys, respects every
edge, and every unemitted key retains an unemitted predecessor. -/
theorem kahnLoop_spec (g : Graph) (hgi : GraphInv g) (hwfg : WFGraph g) :
    ∀ (fuel : Nat) (ind : List (String × Int)) (queue sorted : List String),
      KahnInv g ind queue sorted →
      idegWeight ind + queue.length ≤ fuel →
      (∃ post, kahnLoop g fuel ind queue sorted = sorted ++ post) ∧
      (kahnLoop g fuel ind queue sorted).Nodup ∧
      (∀ x ∈ kahnLoop g fuel ind queue sorted, x ∈ keys g) ∧
      (∀ v ∈ kahnLoop g fuel ind queue sorted, ∀ u, isEdge g u v →
        u ∈ kahnLoop g fuel ind queue sorted ∧
        (kahnLoop g fuel ind queue sorted).indexOf u <
          (kahnLoop g fuel ind queue sorted).indexOf v) ∧
      (∀ v ∈ keys g, v ∉ kahnLoop g fuel ind queue sorted →
        ∃ u ∈ keys g, u ∉ kahnLoop g fuel ind queue sorted ∧ isEdge g u v) := by
  intro fuel
  induction fuel with
  | zero =>
      intro ind queue sorted hinv hfuel
      have hq : queue = [] := List.eq_nil_of_length_eq_zero (by omega)
      subst hq
      rw [kahnLoop_nil]
      obtain ⟨h1, h2, h3, h4⟩ := kahnLoop_terminal g ind sorted hinv
      exact ⟨⟨[], (List.append_nil sorted).symm⟩, h1, h2, h3, h4⟩
  | succ fuel ih =>
      intro ind queue sorted hinv hfuel
      cases queue with
      | nil =>
          rw [kahnLoop_nil]
          obtain ⟨h1, h2, h3, h4⟩ := kahnLoop_terminal g ind sorted hinv
          exact ⟨⟨[], (List.append_nil sorted).symm⟩, h1, h2, h3, h4⟩
      | cons node rest =>
          obtain ⟨hinv', hdec⟩ := kahnInv_step g hgi hwfg ind node rest sorted
            (kahnNeighbors ind rest (adj g node)).1
            (kahnNeighbors ind rest (adj g node)).2 rfl rfl hinv
          have hfuel' : idegWeight (kahnNeighbors ind rest (adj g node)).1 +
              (kahnNeighbors ind rest (adj g node)).2.length ≤ fuel := by
            omega
          obtain ⟨⟨post, hpost⟩, hnd, hkeys, htopo, hleft⟩ :=
            ih (kahnNeighbors ind rest (adj g node)).1
              (kahnNeighbors ind rest (adj g node)).2 (sorted ++ [node]) hinv' hfuel'
          rw [kahnLoop_cons]
          refine ⟨⟨[node] ++ post, ?_⟩, hnd, hkeys, htopo, hleft⟩
          rw [hpost, List.append_assoc]

/-! ## Resolver: a residual set in which every node has a predecessor
contains a cycle -/

theorem nodup_split_of_dup {α : Type} :
    ∀ (l : List α), ¬l.Nodup → ∃ (a : α) (l1 l2 l3 : List α),
      l = l1 ++ a :: l2 ++ a :: l3 := by
  intro l
  induction l with
  | nil => intro h; exact absurd List.nodup_nil h
  | cons x t ih =>
      intro h
      rw [List.nodup_cons] at h
      by_cases hx : x ∈ t
      · obtain ⟨s, r, hsr⟩ := List.append_of_mem hx
        exact ⟨x, [], s, r, by simp [hsr]⟩
      · have ht : ¬t.Nodup := fun hnd => h ⟨hx, hnd⟩
        obtain ⟨a, l1, l2, l3, hsplit⟩ := ih ht
        exact ⟨a, x :: l1, l2, l3, by simp [hsplit]⟩

theorem exists_long_chain (g : Graph) (S : List String)
    (hpred : ∀ v ∈ S, ∃ u ∈ S, isEdge g u v) (v0 : String) (hv0 : v0 ∈ S) :
    ∀ n, ∃ l : List String, l.length = n + 1 ∧ (∀ x ∈ l, x ∈ S) ∧
      List.Chain' (isEdge g) l := by
  intro n
  induction n with
  | zero =>
      refine ⟨[v0], rfl, ?_, List.chain'_singleton v0⟩
      intro x hx
      rw [List.mem_singleton.mp hx]
      exact hv0
  | succ n ihn =>
      obtain ⟨l, hlen, hS, hch⟩ := ihn
      cases l with
      | nil => cases hlen
      | cons v t =>
          obtain ⟨u, huS, hedge⟩ := hpred v (hS v (List.mem_cons_self v t))
          refine ⟨u :: v :: t, ?_, ?_, ?_⟩
          · rw [List.length_cons, hlen]
          · intro x hx
            rcases List.mem_cons.mp hx with h | h
            · rw [h]; exact huS
            · exact hS x h
          · exact List.chain'_cons.mpr ⟨hedge, hch⟩

/-- If every node of a non-empty duplicate-free set has a predecessor
inside the set, the graph has a dependency cycle (pigeonhole on chains
longer than the set). -/
theorem cycle_of_all_pred (g : Graph) (S : List String) (hS : S ≠ [])
    (hpred : ∀ v ∈ S, ∃ u ∈ S, isEdge g u v) :
    ∃ ch, IsCycleChain g ch := by
  obtain ⟨v0, hv0⟩ := List.exists_mem_of_ne_nil S hS
  obtain ⟨l, hlen, hmem, hch⟩ := exists_long_chain g S hpred v0 hv0 S.length
  have hnotnd : ¬l.Nodup := by
    intro hnd
    have := List.Subperm.length_le (List.Nodup.subperm hnd hmem)
    omega
  obtain ⟨a, l1, l2, l3, hsplit⟩ := nodup_split_of_dup l hnotnd
  refine ⟨a :: l2 ++ [a], ?_, ?_, ?_⟩
  · rw [List.cons_append, List.length_cons, List.length_append, List.length_cons,
      List.length_nil]
    omega
  · have hinf : (a :: l2 ++ [a]) <:+: l := by
      refine ⟨l1, l3, ?_⟩
      rw [hsplit]
      simp
    exact List.Chain'.infix hch hinf
  · show (a :: (l2 ++ [a])).head? = (a :: (l2 ++ [a])).getLast?
    rw [List.head?_cons, ← List.cons_append, List.getLast?_concat]

/-! ## Resolver: topological sort correctness -/

theorem reverse_indexOf :
    ∀ (l : List String), l.Nodup → ∀ a ∈ l,
      l.reverse.indexOf a = l.length - 1 - l.indexOf a := by
  intro l
  induction l with
  | nil => intro _ a ha; cases ha
  | cons x t ih =>
      intro hnd a ha
      rw [List.nodup_cons] at hnd
      rw [List.reverse_cons]
      by_cases hax : a = x
      · subst hax
        rw [indexOf_append_not_mem _ (by rw [List.mem_reverse]; exact hnd.1),
          List.indexOf_cons_self, List.indexOf_cons_self, List.length_reverse,
          List.length_cons]
        omega
      · have hat : a ∈ t := by
          rcases List.mem_cons.mp ha with h | h
          · exact absurd h hax
          · exact h
        rw [indexOf_append_mem _ (by rw [List.mem_reverse]; exact hat),
          ih hnd.2 a hat, List.indexOf_cons,
          beq_eq_false_iff_ne.mpr (fun he => hax he.symm), cond_false,
          List.length_cons]
        have := List.indexOf_lt_length.mpr hat
        omega

/-- `_topological_sort` on a duplicate-free well-formed acyclic graph:
it succeeds, and the returned order lists each key exactly once with
every dependency strictly before each of its dependents. -/
theorem topologicalSort_spec (g : Graph) (hgi : GraphInv g) (hwfg : WFGraph g)
    (hacyc : Acyclic g) :
    ∃ L, topologicalSort g = .ok L ∧ L.Nodup ∧ (∀ x, x ∈ L ↔ x ∈ keys g) ∧
      ∀ u v, isEdge g u v → L.indexOf v < L.indexOf u := by
  have hgnd : (keys g).Nodup := hgi.1
  have hinv0 : KahnInv g (initIndeg g)
      ((keys g).filter (fun v => decide (ideg (initIndeg g) v = 0))) [] := by
    refine ⟨initIndeg_keys g hgnd hwfg, ?_, ?_, ?_, ?_, ?_, ?_⟩
    · rw [List.nil_append]
      exact List.Nodup.filter _ hgnd
    · intro x hx; cases hx
    · intro x hx
      exact (List.mem_filter.mp hx).1
    · intro v hv
      exact initIndeg_values g hgi v
    · intro v hv
      constructor
      · intro hc
        rcases hc with h | h
        · cases h
        · have := (List.mem_filter.mp h).2
          rw [decide_eq_true_eq] at this
          have h2 := initIndeg_values g hgi v
          omega
      · intro h0
        right
        rw [List.mem_filter]
        refine ⟨hv, ?_⟩
        rw [decide_eq_true_eq, initIndeg_values g hgi v, h0]
        rfl
    · intro v hv; cases hv
  obtain ⟨⟨post, hpost⟩, hnd, hkeys, htopo, hleft⟩ := kahnLoop_spec g hgi hwfg
    (idegWeight (initIndeg g) +
      ((keys g).filter (fun v => decide (ideg (initIndeg g) v = 0))).length)
    (initIndeg g) ((keys g).filter (fun v => decide (ideg (initIndeg g) v = 0))) []
    hinv0 (Nat.le_refl _)
  have hsub : ∀ v ∈ keys g, v ∈ kahnLoop g
      (idegWeight (initIndeg g) +
        ((keys g).filter (fun v => decide (ideg (initIndeg g) v = 0))).length)
      (initIndeg g) ((keys g).filter (fun v => decide (ideg (initIndeg g) v = 0))) [] := by
    by_contra hall
    push_neg at hall
    obtain ⟨v, hv, hvs⟩ := hall
    obtain ⟨ch, hch⟩ := cycle_of_all_pred g
      ((keys g).filter (fun x => decide (x ∉ kahnLoop g
        (idegWeight (initIndeg g) +
          ((keys g).filter (fun v => decide (ideg (initIndeg g) v = 0))).length)
        (initIndeg g) ((keys g).filter (fun v => decide (ideg (initIndeg g) v = 0))) [])))
      (by
        intro hnil
        have : v ∈ ([] : List String) := by
          rw [← hnil, List.mem_filter]
          exact ⟨hv, decide_eq_true hvs⟩
        cases this)
      (by
        intro w hw
        rw [List.mem_filter, decide_eq_true_eq] at hw
        obtain ⟨u, huk, hus, hedge⟩ := hleft w hw.1 hw.2
        refine ⟨u, ?_, hedge⟩
        rw [List.mem_filter, decide_eq_true_eq]
        exact ⟨huk, hus⟩)
    exact hacyc ch hch
  have hlen : (kahnLoop g
      (idegWeight (initIndeg g) +
        ((keys g).filter (fun v => decide (ideg (initIndeg g) v = 0))).length)
      (initIndeg g) ((keys g).filter (fun v => decide (ideg (initIndeg g) v = 0)))
      []).length = (keys g).length := by
    apply Nat.le_antisymm
    · exact List.Subperm.length_le (List.Nodup.subperm hnd (fun x hx => hkeys x hx))
    · exact List.Subperm.length_le (List.Nodup.subperm hgnd (fun x hx => hsub x hx))
  refine ⟨(kahnLoop g
      (idegWeight (initIndeg g) +
        ((keys g).filter (fun v => decide (ideg (initIndeg g) v = 0))).length)
      (initIndeg g) ((keys g).filter (fun v => decide (ideg (initIndeg g) v = 0)))
      []).reverse, ?_, ?_, ?_, ?_⟩
  · simp only [topologicalSort]
    rw [if_neg (by omega)]
  · rw [List.nodup_reverse]
    exact hnd
  · intro x
    rw [List.mem_reverse]
    exact ⟨fun h => hkeys x h, fun h => hsub x h⟩
  · intro u v hedge
    have hvk : v ∈ keys g := hwfg u v (hedge : v ∈ adj g u)
    obtain ⟨hus, hidx⟩ := htopo v (hsub v hvk) u hedge
    rw [reverse_indexOf _ hnd u hus, reverse_indexOf _ hnd v (hsub v hvk)]
    have h1 := List.indexOf_lt_length.mpr (hsub v hvk)
    omega

/-- `resolve_load_order` on a mod list whose declared dependencies are
all present and whose dependency graph is acyclic: it returns a
duplicate-free load order over exactly the input ids in which every
dependency precedes each of its dependents. -/
theorem resolveLoadOrder_spec (mods : List Mod)
    (hdeps : ∀ m ∈ mods, ∀ d ∈ m.dependencies, d.mod_id ∈ mods.map (·.id))
    (hacyc : Acyclic (depGraph mods)) :
    ∃ L, resolveLoadOrder mods = .ok L ∧ L.Nodup ∧
      (∀ x, x ∈ L ↔ x ∈ mods.map (·.id)) ∧
      (∀ m ∈ mods, ∀ d ∈ m.dependencies, L.indexOf d.mod_id < L.indexOf m.id) := by
  have hgi := graphInv_depGraph mods
  have hwfg := wf_depGraph mods hdeps
  obtain ⟨L, hok, hnd, hmem, hord⟩ := topologicalSort_spec (depGraph mods) hgi hwfg hacyc
  have hcc : checkCircularDependencies (depGraph mods) = .ok () := by
    rcases checkCircular_result (depGraph mods) hgi.1 hwfg with h | ⟨ch, hch, hcyc⟩
    · exact h
    · exact absurd hcyc (hacyc ch)
  refine ⟨L, ?_, hnd, ?_, ?_⟩
  · unfold resolveLoadOrder
    rw [build_eq_ok mods hdeps]
    simp only [bind, Except.bind]
    rw [hcc]
    exact hok
  · intro x
    rw [hmem x, mem_keys_depGraph]
  · intro m hm d hd
    have hedge : isEdge (depGraph mods) m.id d.mod_id := by
      show d.mod_id ∈ adj (depGraph mods) m.id
      rw [mem_adj_depGraph]
      exact ⟨m, hm, rfl, d, hd, rfl⟩
    exact hord m.id d.mod_id hedge

/-- C1: for every acyclic set of mods in which each declared dependency
id is present in the input set, `resolve_load_order` returns a list
containing every input mod id exactly once, and for every dependency
edge (m depends on d) the position of d in the returned list is strictly
less than the position of m. -/
theorem resolve_load_order_acyclic_correct (mods : List Mod)
    (hdeps : ∀ m ∈ mods, ∀ d ∈ m.dependencies, d.mod_id ∈ mods.map (·.id))
    (hacyc : Acyclic (depGraph mods)) :
    ∃ L, resolveLoadOrder mods = .ok L ∧
      (∀ x ∈ mods.map (·.id), L.count x = 1) ∧
      (∀ x ∈ L, x ∈ mods.map (·.id)) ∧
      (∀ m ∈ mods, ∀ d ∈ m.dependencies, L.indexOf d.mod_id < L.indexOf m.id) := by
  obtain ⟨L, hok, hnd, hmem, hord⟩ := resolveLoadOrder_spec mods hdeps hacyc
  refine ⟨L, hok, ?_, fun x hx => (hmem x).mp hx, hord⟩
  intro x hx
  exact List.count_eq_one_of_mem hnd ((hmem x).mpr hx)

theorem resolve_load_order_acyclic_correct_witness :
    (∀ m ∈ ([{ id := "A", name := "A", version := "1", dependencies := [] },
       { id := "B", name := "B", version := "1", dependencies := [⟨"A", ""⟩] },
       { id := "C", name := "C", version := "1", dependencies := [⟨"B", ""⟩] }] :
        List Mod), ∀ d ∈ m.dependencies, d.mod_id ∈
        ([{ id := "A", name := "A", version := "1", dependencies := [] },
          { id := "B", name := "B", version := "1", dependencies := [⟨"A", ""⟩] },
          { id := "C", name := "C", version := "1", dependencies := [⟨"B", ""⟩] }] :
          List Mod).map (·.id)) ∧
    Acyclic (depGraph
      [{ id := "A", name := "A", version := "1", dependencies := [] },
       { id := "B", name := "B", version := "1", dependencies := [⟨"A", ""⟩] },
       { id := "C", name := "C", version := "1", dependencies := [⟨"B", ""⟩] }]) ∧
    ∃ L, resolveLoadOrder
      [{ id := "A", name := "A", version := "1", dependencies := [] },
       { id := "B", name := "B", version := "1", dependencies := [⟨"A", ""⟩] },
       { id := "C", name := "C", version := "1", dependencies := [⟨"B", ""⟩] }] = .ok L ∧
      (∀ x ∈ ([{ id := "A", name := "A", version := "1", dependencies := [] },
        { id := "B", name := "B", version := "1", dependencies := [⟨"A", ""⟩] },
        { id := "C", name := "C", version := "1", dependencies := [⟨"B", ""⟩] }] :
         List Mod).map (·.id), L.count x = 1) ∧
      (∀ x ∈ L, x ∈ ([{ id := "A", name := "A", version := "1", dependencies := [] },
        { id := "B", name := "B", version := "1", dependencies := [⟨"A", ""⟩] },
        { id := "C", name := "C", version := "1", dependencies := [⟨"B", ""⟩] }] :
         List Mod).map (·.id)) ∧
      (∀ m ∈ ([{ id := "A", name := "A", version := "1", dependencies := [] },
        { id := "B", name := "B", version := "1", dependencies := [⟨"A", ""⟩] },
        { id := "C", name := "C", version := "1", dependencies := [⟨"B", ""⟩] }] :
         List Mod), ∀ d ∈ m.dependencies,
        L.indexOf d.mod_id < L.indexOf m.id) :=
  ⟨by decide, checkCircular_ok_acyclic _ rfl,
    resolve_load_order_acyclic_correct _ (by decide) (checkCircular_ok_acyclic _ rfl)⟩

/-- C2: for every mod set (with all declared dependency ids present)
whose dependency graph contains a cycle, `resolve_load_order` raises
`CircularDependencyError`, and the chain it carries is a valid cycle of
the input graph: consecutive chain elements are dependency edges and the
chain returns to its first element. -/
theorem resolve_load_order_cyclic_error (mods : List Mod)
    (hdeps : ∀ m ∈ mods, ∀ d ∈ m.dependencies, d.mod_id ∈ mods.map (·.id))
    (hcyc : ∃ ch, IsCycleChain (depGraph mods) ch) :
    ∃ ch, resolveLoadOrder mods = .error (.circular ch) ∧
      IsCycleChain (depGraph mods) ch := by
  have hgi := graphInv_depGraph mods
  have hwfg := wf_depGraph mods hdeps
  rcases checkCircular_result (depGraph mods) hgi.1 hwfg with h | ⟨ch, hch, hcyc'⟩
  · obtain ⟨ch, hch⟩ := hcyc
    exact absurd hch (checkCircular_ok_acyclic _ h ch)
  · refine ⟨ch, ?_, hcyc'⟩
    unfold resolveLoadOrder
    rw [build_eq_ok mods hdeps]
    simp only [bind, Except.bind]
    rw [hch]

theorem resolve_load_order_cyclic_error_witness :
    (∀ m ∈ ([{ id := "A", name := "A", version := "1", dependencies := [⟨"B", ""⟩] },
       { id := "B", name := "B", version := "1", dependencies := [⟨"A", ""⟩] }] :
        List Mod), ∀ d ∈ m.dependencies, d.mod_id ∈
        ([{ id := "A", name := "A", version := "1", dependencies := [⟨"B", ""⟩] },
          { id := "B", name := "B", version := "1", dependencies := [⟨"A", ""⟩] }] :
          List Mod).map (·.id)) ∧
    (∃ ch, IsCycleChain (depGraph
      [{ id := "A", name := "A", version := "1", dependencies := [⟨"B", ""⟩] },
       { id := "B", name := "B", version := "1", dependencies := [⟨"A", ""⟩] }]) ch) ∧
    ∃ ch, resolveLoadOrder
      [{ id := "A", name := "A", version := "1", dependencies := [⟨"B", ""⟩] },
       { id := "B", name := "B", version := "1", dependencies := [⟨"A", ""⟩] }] =
        .error (.circular ch) ∧
      IsCycleChain (depGraph
        [{ id := "A", name := "A", version := "1", dependencies := [⟨"B", ""⟩] },
         { id := "B", name := "B", version := "1", dependencies := [⟨"A", ""⟩] }]) ch := by
  have hch : IsCycleChain (depGraph
      [{ id := "A", name := "A", version := "1", dependencies := [⟨"B", ""⟩] },
       { id := "B", name := "B", version := "1", dependencies := [⟨"A", ""⟩] }])
      ["A", "B", "A"] := by
    refine ⟨by decide, ?_, by decide⟩
    refine List.chain'_cons.mpr ⟨by decide, ?_⟩
    refine List.chain'_cons.mpr ⟨by decide, ?_⟩
    exact List.chain'_singleton _
  exact ⟨by decide, ⟨_, hch⟩,
    resolve_load_order_cyclic_error _ (by decide) ⟨_, hch⟩⟩

/-- C2 counterexample: a mod set whose dependency graph contains a
(self-)cycle but in which another mod declares a dependency on an absent
id raises `MissingDependencyError` from graph construction, not
`CircularDependencyError`: the missing-dependency check of
`_build_dependency_graph` runs before the cycle check. -/
theorem resolve_load_order_missing_beats_cycle_counterexample :
    IsCycleChain (depGraph
      [{ id := "A", name := "A", version := "1", dependencies := [⟨"A", ""⟩] },
       { id := "C", name := "C", version := "1", dependencies := [⟨"D", ""⟩] }])
      ["A", "A"] ∧
    resolveLoadOrder
      [{ id := "A", name := "A", version := "1", dependencies := [⟨"A", ""⟩] },
       { id := "C", name := "C", version := "1", dependencies := [⟨"D", ""⟩] }] =
      .error (.missing "C" "D" "") :=
  ⟨⟨by decide, List.chain'_cons.mpr ⟨by decide, List.chain'_singleton _⟩, by decide⟩,
    rfl⟩

theorem autoResolve_eq_resolve (mod_ids : List String)
    (available : List (String × Mod)) :
    autoResolveDependencies mod_ids available =
      resolveLoadOrder (autoModsToSort mod_ids available) := rfl

/-- C6 counterexample: mod `A` is in the catalog and depends on `B`,
which is not; `auto_resolve_dependencies(["A"])` skips `B` during
accumulation but then fails with `MissingDependencyError` inside the
final strict `resolve_load_order` over the available accumulated mods,
so the call does fail because a transitively referenced id is absent
from the catalog. -/
theorem auto_resolve_unavailable_dep_error_counterexample :
    autoResolveDependencies ["A"]
      [("A", { id := "A", name := "A", version := "1",
               dependencies := [⟨"B", "1.0"⟩] })] =
      .error (.missing "A" "B" "1.0") := rfl

/-- C6 (amended): unavailable ids never fail the accumulation loop (they
are skipped with a warning), and whenever every dependency of an
available accumulated mod is itself among the available accumulated mods
and their graph is acyclic, the call returns a load order over exactly
the available accumulated mods; but when an available accumulated mod
depends on an id absent from the catalog, the final strict
`resolve_load_order` raises `MissingDependencyError` (see the
counterexample). -/
theorem auto_resolve_dependencies_sorts_available (mod_ids : List String)
    (available : List (String × Mod))
    (hdeps : ∀ m ∈ autoModsToSort mod_ids available, ∀ d ∈ m.dependencies,
      d.mod_id ∈ (autoModsToSort mod_ids available).map (·.id))
    (hacyc : Acyclic (depGraph (autoModsToSort mod_ids available))) :
    ∃ L, autoResolveDependencies mod_ids available = .ok L ∧
      (∀ x ∈ (autoModsToSort mod_ids available).map (·.id), L.count x = 1) ∧
      (∀ x ∈ L, x ∈ (autoModsToSort mod_ids available).map (·.id)) ∧
      (∀ m ∈ autoModsToSort mod_ids available, ∀ d ∈ m.dependencies,
        L.indexOf d.mod_id < L.indexOf m.id) := by
  obtain ⟨L, hok, hnd, hmem, hord⟩ := resolveLoadOrder_spec
    (autoModsToSort mod_ids available) hdeps hacyc
  refine ⟨L, ?_, ?_, fun x hx => (hmem x).mp hx, hord⟩
  · rw [autoResolve_eq_resolve]
    exact hok
  · intro x hx
    exact List.count_eq_one_of_mem hnd ((hmem x).mpr hx)

theorem auto_resolve_dependencies_sorts_available_witness :
    (∀ m ∈ autoModsToSort ["A"]
        [("A", { id := "A", name := "A", version := "1",
                 dependencies := [⟨"B", "1.0"⟩] }),
         ("B", { id := "B", name := "B", version := "1", dependencies := [] })],
      ∀ d ∈ m.dependencies, d.mod_id ∈ (autoModsToSort ["A"]
        [("A", { id := "A", name := "A", version := "1",
                 dependencies := [⟨"B", "1.0"⟩] }),
         ("B", { id := "B", name := "B", version := "1",
                 dependencies := [] })]).map (·.id)) ∧
    Acyclic (depGraph (autoModsToSort ["A"]
      [("A", { id := "A", name := "A", version := "1",
               dependencies := [⟨"B", "1.0"⟩] }),
       ("B", { id := "B", name := "B", version := "1", dependencies := [] })])) ∧
    ∃ L, autoResolveDependencies ["A"]
      [("A", { id := "A", name := "A", version := "1",
               dependencies := [⟨"B", "1.0"⟩] }),
       ("B", { id := "B", name := "B", version := "1", dependencies := [] })] =
        .ok L ∧
      (∀ x ∈ (autoModsToSort ["A"]
        [("A", { id := "A", name := "A", version := "1",
                 dependencies := [⟨"B", "1.0"⟩] }),
         ("B", { id := "B", name := "B", version := "1",
                 dependencies := [] })]).map (·.id), L.count x = 1) ∧
      (∀ x ∈ L, x ∈ (autoModsToSort ["A"]
        [("A", { id := "A", name := "A", version := "1",
                 dependencies := [⟨"B", "1.0"⟩] }),
         ("B", { id := "B", name := "B", version := "1",
                 dependencies := [] })]).map (·.id)) ∧
      (∀ m ∈ autoModsToSort ["A"]
        [("A", { id := "A", name := "A", version := "1",
                 dependencies := [⟨"B", "1.0"⟩] }),
         ("B", { id := "B", name := "B", version := "1", dependencies := [] })],
        ∀ d ∈ m.dependencies, L.indexOf d.mod_id < L.indexOf m.id) :=
  ⟨by decide, checkCircular_ok_acyclic _ rfl,
    auto_resolve_dependencies_sorts_available _ _ (by decide)
      (checkCircular_ok_acyclic _ rfl)⟩

end VMM
